import Mathlib

set_option maxRecDepth 8000

/-!
Verification of the `kyria_oled` frame-encoding pipeline.

Shallow embedding conventions:
* Rust `u8` values are modelled as `Nat`, with `% 256` inserted exactly where
  the Rust code performs wrapping `u8` arithmetic or an `as u8` cast.
* Code that can panic (out-of-bounds indexing, `unwrap`) is modelled in
  `Option`; `none` stands for a panic.
* Rust loops that terminate because the iterator shrinks are written with an
  explicit fuel argument, initialised by the top-level wrapper to the input
  length.  Every loop iteration consumes at least one element, so with that
  initial value the fuel is never exhausted; the fuel-zero branches are dead
  code for the arguments the wrappers pass.
-/

namespace Kyria

/-- Length of the run of `base` at the head of the list, capped by `cap`.
Models the scan `iter.clone().enumerate().take_while(|(i, &b)| i <
&0b0111_1110 && b == base).count()` in the first pass of `compress`
(`src/lib.rs`), where `cap = 126`. -/
def runLen (base : Nat) : Nat → List Nat → Nat
  | _, [] => 0
  | 0, _ :: _ => 0
  | cap + 1, b :: rest => if b = base then runLen base cap rest + 1 else 0

/-- First pass of `compress` (`src/lib.rs`): cut the input into
`(run length, value)` pairs; the Rust code pushes `nb as u8 + 1` and the
value onto the flat `intermediate` vector, which the second pass re-reads
through `chunks(2)`, so the flat vector is modelled directly as the pair
list. -/
def pass1Fuel : Nat → List Nat → List (Nat × Nat)
  | _, [] => []
  | 0, _ :: _ => []
  | fuel + 1, base :: rest =>
    let nb := runLen base 126 rest
    ((nb % 256 + 1) % 256, base) :: pass1Fuel fuel (rest.drop nb)

def pass1 (data : List Nat) : List (Nat × Nat) := pass1Fuel data.length data

/-- Number of leading pairs whose first component (the control byte) is `1`,
capped by `cap`.  Models the scan `take_while(|(i, b)| i < &0b0111_1110 &&
b[0] == 1).count()` in the second pass of `compress`, where `cap = 126`. -/
def runOnes : Nat → List (Nat × Nat) → Nat
  | _, [] => 0
  | 0, _ :: _ => 0
  | cap + 1, p :: rest => if p.1 = 1 then runOnes cap rest + 1 else 0

/-- Second pass of `compress` (`src/lib.rs`): re-emit the `(control, value)`
pairs, collapsing maximal groups of `control = 1` pairs into a single
literal-mode record `((nb + 1) as u8 | 0b1000_0000) :: value :: values`. -/
def pass2Fuel : Nat → List (Nat × Nat) → List Nat
  | _, [] => []
  | 0, _ :: _ => []
  | fuel + 1, (control, value) :: rest =>
    if control = 1 then
      let nb := runOnes 126 rest
      Nat.lor ((nb + 1) % 256) 128 :: value :: (rest.take nb).map Prod.snd
        ++ pass2Fuel fuel (rest.drop nb)
    else
      control :: value :: pass2Fuel fuel rest

def pass2 (l : List (Nat × Nat)) : List Nat := pass2Fuel l.length l

/-- `compress` from `src/lib.rs`: the two passes composed. -/
def compress (data : List Nat) : List Nat := pass2 (pass1 data)

/-- `uncompress` from `src/lib.rs`.  Reads a control byte, branches on the
mode bit `byte >> 7`, and emits the payload; `iter.next().unwrap()` on a
truncated stream is a panic, modelled by `none`. -/
def uncompressFuel : Nat → List Nat → Option (List Nat)
  | _, [] => some []
  | 0, _ :: _ => none
  | fuel + 1, byte :: rest =>
    if (byte % 256) >>> 7 = 1 then
      if (byte % 256) &&& 127 ≤ rest.length then
        (uncompressFuel fuel (rest.drop ((byte % 256) &&& 127))).map
          (fun tail => rest.take ((byte % 256) &&& 127) ++ tail)
      else none
    else
      match rest with
      | [] => none
      | next :: rest2 =>
        (uncompressFuel fuel rest2).map
          (fun tail => List.replicate ((byte % 256) &&& 127) next ++ tail)

def uncompress (data : List Nat) : Option (List Nat) := uncompressFuel data.length data

/-- Writing `values` into the buffer `output` starting at position `pos`,
one `output[pos] = v; pos += 1` at a time (out-of-range writes are checked
by the caller). -/
def writeSeq : List Nat → Nat → List Nat → List Nat
  | output, _, [] => output
  | output, pos, v :: vs => writeSeq (output.set pos v) (pos + 1) vs

/-- `uncompress2` from `src/lib.rs`: the index-based decompressor writing
into a caller-supplied buffer.  `data[i]` past the end of `data` and
`output[pos]` past the end of `output` are panics, modelled by `none`. -/
def uncompress2Fuel : Nat → List Nat → Nat → List Nat → Option (List Nat)
  | _, [], _, output => some output
  | 0, _ :: _, _, _ => none
  | fuel + 1, byte :: rest, pos, output =>
    if (byte % 256) >>> 7 ≠ 0 then
      if (byte % 256) &&& 127 ≤ rest.length ∧ pos + ((byte % 256) &&& 127) ≤ output.length then
        uncompress2Fuel fuel (rest.drop ((byte % 256) &&& 127))
          (pos + ((byte % 256) &&& 127))
          (writeSeq output pos (rest.take ((byte % 256) &&& 127)))
      else none
    else
      match rest with
      | [] => none
      | next :: rest2 =>
        if pos + ((byte % 256) &&& 127) ≤ output.length then
          uncompress2Fuel fuel rest2 (pos + ((byte % 256) &&& 127))
            (writeSeq output pos (List.replicate ((byte % 256) &&& 127) next))
        else none

def uncompress2 (data output : List Nat) : Option (List Nat) :=
  uncompress2Fuel data.length data 0 output

/-- `u8::wrapping_sub` on byte-valued `Nat`s. -/
def wrappingSub (a b : Nat) : Nat := (a % 256 + (256 - b % 256)) % 256

/-- `diff` from `src/lib.rs`: `base.iter().zip(other).map(wrapping_sub)` —
note that `zip` silently stops at the shorter of the two inputs. -/
def diff (base other : List Nat) : List Nat :=
  List.zipWith (fun b o => wrappingSub b o) base other

/-- `undiff` from `src/lib.rs`: `for i in 0..base.len() { other[i] =
base[i].wrapping_sub(other[i]) }`; the write `other[i]` panics when `other`
is shorter than `base`, and entries of `other` past `base.len()` are left
untouched. -/
def undiff : List Nat → List Nat → Option (List Nat)
  | [], other => some other
  | _ :: _, [] => none
  | b :: bs, o :: os => (undiff bs os).map (fun rest => wrappingSub b o :: rest)

/-- `generate_from_base` from `src/lib.rs`. -/
def generate_from_base (base other : List Nat) : List Nat := compress (diff base other)

/-- The byte sequence a list of `(run length, value)` records stands for. -/
def expandRuns (l : List (Nat × Nat)) : List Nat :=
  (l.map (fun p => List.replicate p.1 p.2)).flatten

end Kyria

namespace Kyria

/-! ## `Frame` (`src/frame.rs`)

A `Frame` is a pixel matrix `Vec<Vec<u8>>`, modelled as `List (List Nat)`. -/

/-- `m[i][j]` as an `Option`: `none` models the panic of an out-of-bounds
index. -/
def get2? (m : List (List Nat)) (i j : Nat) : Option Nat := do
  let row ← m.get? i
  row.get? j

/-- One packed byte of `Frame::output`:
`f[h][w] | f[h+1][w] << 1 | ... | f[h+7][w] << 7` (each `<<` is a wrapping
`u8` shift). -/
def byteAt (m : List (List Nat)) (h w : Nat) : Option Nat := do
  let b0 ← get2? m h w
  let b1 ← get2? m (h + 1) w
  let b2 ← get2? m (h + 2) w
  let b3 ← get2? m (h + 3) w
  let b4 ← get2? m (h + 4) w
  let b5 ← get2? m (h + 5) w
  let b6 ← get2? m (h + 6) w
  let b7 ← get2? m (h + 7) w
  pure (Nat.lor (Nat.lor (Nat.lor (Nat.lor (Nat.lor (Nat.lor (Nat.lor b0
    ((b1 <<< 1) % 256)) ((b2 <<< 2) % 256)) ((b3 <<< 3) % 256)) ((b4 <<< 4) % 256))
    ((b5 <<< 5) % 256)) ((b6 <<< 6) % 256)) ((b7 <<< 7) % 256))

/-- `slice::rposition`: index (from the front) of the last element
satisfying `p`. -/
def rposition (p : Nat → Bool) (l : List Nat) : Option Nat :=
  (l.reverse.findIdx? p).map (fun j => l.length - 1 - j)

/-- The trailing-zero strip at the end of `Frame::output`:
`if let Some(i) = res.iter().rposition(|x| *x != 0) { res.truncate(i + 1) }`.
When every byte is zero, `rposition` is `None` and nothing is truncated. -/
def truncTrailingZeros (l : List Nat) : List Nat :=
  match rposition (fun x => x != 0) l with
  | some i => l.take (i + 1)
  | none => l

/-- `Frame::output` from `src/frame.rs`: pack the matrix band-major
(`(0..height).step_by(8)`), column-minor, then strip trailing zero bytes.
`self.frame[0]` panics on an empty matrix, and `self.frame[height + r]`
panics when the height is not a multiple of 8; both are `none`. -/
def Frame.output (m : List (List Nat)) : Option (List Nat) := do
  let r0 ← m.get? 0
  let width := r0.length
  let height := m.length
  let bands ← ((List.range ((height + 7) / 8)).map (fun b => 8 * b)).mapM
    (fun h => (List.range width).mapM (fun w => byteAt m h w))
  pure (truncTrailingZeros bands.flatten)

/-- `internal[i][j] = v`: `none` models the panic of an out-of-bounds
write. -/
def set2? (m : List (List Nat)) (i j v : Nat) : Option (List (List Nat)) := do
  let row ← m.get? i
  if j < row.length then pure (m.set i (row.set j v)) else none

/-- The body of the inner loop of `Frame::new`: the eight assignments
`internal[height * 8 + r][width] = (b >> r) & 1`. -/
def applyByte (m : List (List Nat)) (h w b : Nat) : Option (List (List Nat)) := do
  let m ← set2? m (h * 8) w (((b % 256) >>> 0) &&& 1)
  let m ← set2? m (h * 8 + 1) w (((b % 256) >>> 1) &&& 1)
  let m ← set2? m (h * 8 + 2) w (((b % 256) >>> 2) &&& 1)
  let m ← set2? m (h * 8 + 3) w (((b % 256) >>> 3) &&& 1)
  let m ← set2? m (h * 8 + 4) w (((b % 256) >>> 4) &&& 1)
  let m ← set2? m (h * 8 + 5) w (((b % 256) >>> 5) &&& 1)
  let m ← set2? m (h * 8 + 6) w (((b % 256) >>> 6) &&& 1)
  set2? m (h * 8 + 7) w (((b % 256) >>> 7) &&& 1)

/-- The inner loop of `Frame::new`: `for (width, b) in line.iter().enumerate()`. -/
def writeLine (h : Nat) : List (List Nat) → Nat → List Nat → Option (List (List Nat))
  | m, _, [] => some m
  | m, w, b :: rest => (applyByte m h w b).bind (fun m2 => writeLine h m2 (w + 1) rest)

/-- The outer loop of `Frame::new`:
`for (height, line) in frame.chunks(width).enumerate()`. -/
def writeChunks : List (List Nat) → Nat → List (List Nat) → Option (List (List Nat))
  | m, _, [] => some m
  | m, h, line :: rest =>
    (writeLine h m 0 line).bind (fun m2 => writeChunks m2 (h + 1) rest)

/-- `slice::chunks(w)`: successive pieces of length `w`, the last one
possibly shorter (`w = 0` panics and is checked by the caller). -/
def chunksFuel (w : Nat) : Nat → List Nat → List (List Nat)
  | _, [] => []
  | 0, _ :: _ => []
  | fuel + 1, l => l.take w :: chunksFuel w fuel (l.drop w)

def chunks (w : Nat) (l : List Nat) : List (List Nat) := chunksFuel w l.length l

/-- `Frame::new` from `src/frame.rs`.  The length check at the top of the
Rust function is behind `if false && …` and therefore dead code; it is
omitted.  `frame.chunks(width)` panics when `width = 0`, and the writes
into `internal` panic when a chunk index reaches rows `≥ height`; both are
`none`. -/
def Frame.new (width height : Nat) (frame : List Nat) : Option (List (List Nat)) :=
  if width = 0 then none
  else writeChunks (List.replicate height (List.replicate width 0)) 0 (chunks width frame)

end Kyria

namespace Kyria

/-! ## Base-frame selection (`src/base_frame.rs` and `src/lib.rs`) -/

/-- `compute_size_from_base` from `src/base_frame.rs`. -/
def compute_size_from_base (base : List Nat) (frames : List (List Nat)) : Nat :=
  (frames.map (fun frame => (generate_from_base base frame).length)).sum

/-- `Iterator::min_by_key` on `(index, key)` pairs: the element with the
least key, the earliest one when several are tied (the documented contract
of `min_by_key`; `none` on an empty iterator, where the Rust call site
`unwrap`s). -/
def minByFirst : List (Nat × Nat) → Option (Nat × Nat)
  | [] => none
  | x :: xs =>
    match minByFirst xs with
    | none => some x
    | some m => some (if m.2 < x.2 then m else x)

/-- `generate_base_frame` from `src/base_frame.rs`.  The `base_frame`
vector computed at the top of the Rust function is only passed to `dbg!`
and never used afterwards, so it is omitted; the selection is
`between.iter().map(|f| compute_size_from_base(f, between)).enumerate()
.min_by_key(|(_i, size)| *size).unwrap().0`, then `between[idx]`. -/
def generate_base_frame (between : List (List Nat)) : Option (List Nat) :=
  match minByFirst ((between.map (fun frame => compute_size_from_base frame between)).enum) with
  | none => none
  | some p => between.get? p.1

/-- `Iterator::max_by_key`: the element with the greatest key, the latest
one when several are tied (the documented contract of `max_by_key`). -/
def maxByLast : List (Nat × Nat) → Option (Nat × Nat)
  | [] => none
  | x :: xs => some (xs.foldl (fun best y => if best.2 ≤ y.2 then y else best) x)

/-- `find_suboptimal_base_frame` from `src/lib.rs`.  For each byte position
the Rust code folds the column into a `HashMap<u8, usize>` of occurrence
counts and takes `.iter().max_by_key(|(_value, occurences)| *occurences)`.
`HashMap` iteration order is unspecified and varies with the hasher's
per-process random seed, so it is a parameter here: `order column` is the
sequence in which the map's keys are visited for that column.  A concrete
run of the program corresponds to some `order` that enumerates each
column's distinct values exactly once. -/
def find_suboptimal_base_frame (order : List Nat → List Nat)
    (frames : List (List Nat)) : Option (List Nat) :=
  match frames with
  | [] => none
  | f0 :: _ =>
    (List.range f0.length).mapM (fun idx => do
      let column ← frames.mapM (fun frame => frame.get? idx)
      let best ← maxByLast ((order column).map (fun v => (v, column.count v)))
      pure best.1)

end Kyria

namespace Kyria

/-! ## Lemmas about the run-length codec -/

@[simp] lemma expandRuns_nil : expandRuns [] = [] := rfl

@[simp] lemma expandRuns_cons (p : Nat × Nat) (l : List (Nat × Nat)) :
    expandRuns (p :: l) = List.replicate p.1 p.2 ++ expandRuns l := rfl

lemma expandRuns_append (l₁ l₂ : List (Nat × Nat)) :
    expandRuns (l₁ ++ l₂) = expandRuns l₁ ++ expandRuns l₂ := by
  simp [expandRuns]

lemma runLen_le_cap (base : Nat) : ∀ (cap : Nat) (l : List Nat),
    runLen base cap l ≤ cap := by
  intro cap l
  induction l generalizing cap with
  | nil => simp [runLen]
  | cons b rest ih =>
    cases cap with
    | zero => simp [runLen]
    | succ c =>
      simp only [runLen]
      split
      · exact Nat.succ_le_succ (ih c)
      · exact Nat.zero_le _

lemma runLen_le_length (base : Nat) : ∀ (cap : Nat) (l : List Nat),
    runLen base cap l ≤ l.length := by
  intro cap l
  induction l generalizing cap with
  | nil => simp [runLen]
  | cons b rest ih =>
    cases cap with
    | zero => simp [runLen]
    | succ c =>
      simp only [runLen, List.length_cons]
      split
      · exact Nat.succ_le_succ (ih c)
      · exact Nat.zero_le _

lemma take_runLen (base : Nat) : ∀ (cap : Nat) (l : List Nat),
    l.take (runLen base cap l) = List.replicate (runLen base cap l) base := by
  intro cap l
  induction l generalizing cap with
  | nil => simp [runLen]
  | cons b rest ih =>
    cases cap with
    | zero => simp [runLen]
    | succ c =>
      simp only [runLen]
      split
      · rename_i hb
        simp [List.take_succ_cons, List.replicate_succ, hb, ih c]
      · simp

lemma runOnes_le_cap : ∀ (cap : Nat) (l : List (Nat × Nat)), runOnes cap l ≤ cap := by
  intro cap l
  induction l generalizing cap with
  | nil => simp [runOnes]
  | cons p rest ih =>
    cases cap with
    | zero => simp [runOnes]
    | succ c =>
      simp only [runOnes]
      split
      · exact Nat.succ_le_succ (ih c)
      · exact Nat.zero_le _

lemma runOnes_le_length : ∀ (cap : Nat) (l : List (Nat × Nat)), runOnes cap l ≤ l.length := by
  intro cap l
  induction l generalizing cap with
  | nil => simp [runOnes]
  | cons p rest ih =>
    cases cap with
    | zero => simp [runOnes]
    | succ c =>
      simp only [runOnes, List.length_cons]
      split
      · exact Nat.succ_le_succ (ih c)
      · exact Nat.zero_le _

lemma runOnes_ones : ∀ (cap : Nat) (l : List (Nat × Nat)),
    ∀ p ∈ l.take (runOnes cap l), p.1 = 1 := by
  intro cap l
  induction l generalizing cap with
  | nil => simp [runOnes]
  | cons q rest ih =>
    cases cap with
    | zero => simp [runOnes]
    | succ c =>
      simp only [runOnes]
      split
      · rename_i hq
        intro p hp
        rw [List.take_succ_cons] at hp
        rcases List.mem_cons.mp hp with h | h
        · rw [h]; exact hq
        · exact ih c p h
      · simp

/-- Records whose run length is `1` expand to their bare values. -/
lemma expandRuns_of_ones (l : List (Nat × Nat)) (h : ∀ p ∈ l, p.1 = 1) :
    expandRuns l = l.map Prod.snd := by
  induction l with
  | nil => rfl
  | cons p rest ih =>
    have hp := h p (List.mem_cons_self p rest)
    simp only [expandRuns_cons, hp, List.replicate_one, List.map_cons]
    rw [ih (fun q hq => h q (List.mem_cons_of_mem p hq))]
    rfl

/-- The first pass cuts the input into runs of length between 1 and 127
whose concatenation is the input. -/
lemma pass1Fuel_spec : ∀ (fuel : Nat) (l : List Nat), l.length ≤ fuel →
    expandRuns (pass1Fuel fuel l) = l ∧
    ∀ p ∈ pass1Fuel fuel l, 1 ≤ p.1 ∧ p.1 ≤ 127 := by
  intro fuel
  induction fuel with
  | zero =>
    intro l hl
    rw [List.length_eq_zero.mp (Nat.le_zero.mp hl)]
    simp [pass1Fuel]
  | succ f ih =>
    intro l hl
    cases l with
    | nil => simp [pass1Fuel]
    | cons base rest =>
      have hcap := runLen_le_cap base 126 rest
      have hlen := runLen_le_length base 126 rest
      have htake := take_runLen base 126 rest
      have hmod : (runLen base 126 rest % 256 + 1) % 256 = runLen base 126 rest + 1 := by
        omega
      have hrest : (rest.drop (runLen base 126 rest)).length ≤ f := by
        simp only [List.length_drop]
        simp only [List.length_cons] at hl
        omega
      obtain ⟨ih1, ih2⟩ := ih (rest.drop (runLen base 126 rest)) hrest
      constructor
      · simp only [pass1Fuel, expandRuns_cons, hmod]
        rw [ih1, List.replicate_succ, ← htake]
        simp
      · intro p hp
        simp only [pass1Fuel, List.mem_cons] at hp
        rcases hp with h | h
        · rw [h]; simp only [hmod]; omega
        · exact ih2 p h

/-- Repeat-mode control bytes (`1 ≤ c ≤ 127`) decode with mode bit 0 and
count `c`. -/
lemma ctrl_rep_decode : ∀ c, c < 128 → (c % 256) >>> 7 = 0 ∧ (c % 256) &&& 127 = c := by
  decide

/-- Literal-mode control bytes `((n + 1) | 0b1000_0000)` for `n ≤ 126`
decode with mode bit 1 and count `n + 1`. -/
lemma ctrl_lit_decode : ∀ n, n < 127 →
    ((Nat.lor ((n + 1) % 256) 128) % 256) >>> 7 = 1 ∧
    ((Nat.lor ((n + 1) % 256) 128) % 256) &&& 127 = n + 1 := by
  decide

end Kyria

namespace Kyria

/-- Decompressing a second-pass stream built from records with run lengths
in `1..127` yields the records' expansion. -/
lemma uncompressFuel_pass2 :
    ∀ (g : Nat) (l : List (Nat × Nat)), l.length ≤ g →
    (∀ p ∈ l, 1 ≤ p.1 ∧ p.1 ≤ 127) →
    ∀ (fuel : Nat), (pass2Fuel g l).length ≤ fuel →
    uncompressFuel fuel (pass2Fuel g l) = some (expandRuns l) := by
  intro g
  induction g with
  | zero =>
    intro l hl _ fuel _
    rw [List.length_eq_zero.mp (Nat.le_zero.mp hl)]
    simp [pass2Fuel, uncompressFuel]
  | succ g ih =>
    intro l hl hp fuel hf
    cases l with
    | nil => simp [pass2Fuel, uncompressFuel]
    | cons cv rest =>
      obtain ⟨control, value⟩ := cv
      have hcv := hp (control, value) (List.mem_cons_self _ _)
      have hrestp : ∀ p ∈ rest, 1 ≤ p.1 ∧ p.1 ≤ 127 :=
        fun p hq => hp p (List.mem_cons_of_mem _ hq)
      have hrestl : rest.length ≤ g := by
        simp only [List.length_cons] at hl; omega
      by_cases hc : control = 1
      · subst hc
        have hcap := runOnes_le_cap 126 rest
        have hlen := runOnes_le_length 126 rest
        have hstream : pass2Fuel (g + 1) ((1, value) :: rest) =
            Nat.lor ((runOnes 126 rest + 1) % 256) 128 :: value ::
              ((rest.take (runOnes 126 rest)).map Prod.snd
                ++ pass2Fuel g (rest.drop (runOnes 126 rest))) := by
          simp [pass2Fuel]
        rw [hstream] at hf ⊢
        cases fuel with
        | zero => simp at hf
        | succ fu =>
          have hdec := ctrl_lit_decode (runOnes 126 rest) (by omega)
          have hmaplen : ((rest.take (runOnes 126 rest)).map Prod.snd).length
              = runOnes 126 rest := by
            simp [List.length_take, Nat.min_eq_left hlen]
          simp only [uncompressFuel, hdec.1, hdec.2, if_true]
          have hcount : runOnes 126 rest + 1 ≤
              (value :: ((rest.take (runOnes 126 rest)).map Prod.snd
                ++ pass2Fuel g (rest.drop (runOnes 126 rest)))).length := by
            simp only [List.length_cons, List.length_append, hmaplen]
            omega
          rw [if_pos hcount]
          have htake : (value :: ((rest.take (runOnes 126 rest)).map Prod.snd
                ++ pass2Fuel g (rest.drop (runOnes 126 rest)))).take (runOnes 126 rest + 1)
              = value :: (rest.take (runOnes 126 rest)).map Prod.snd := by
            rw [List.take_succ_cons, List.take_left' hmaplen]
          have hdrop : (value :: ((rest.take (runOnes 126 rest)).map Prod.snd
                ++ pass2Fuel g (rest.drop (runOnes 126 rest)))).drop (runOnes 126 rest + 1)
              = pass2Fuel g (rest.drop (runOnes 126 rest)) := by
            rw [List.drop_succ_cons, List.drop_left' hmaplen]
          rw [htake, hdrop]
          have hrec := ih (rest.drop (runOnes 126 rest))
            (by simp only [List.length_drop]; omega)
            (fun p hq => hrestp p (List.mem_of_mem_drop hq))
            fu
            (by
              simp only [List.length_cons, List.length_append, hmaplen] at hf
              omega)
          rw [hrec]
          simp only [Option.map_some', List.cons_append]
          congr 1
          have hones : ∀ p ∈ rest.take (runOnes 126 rest), p.1 = 1 :=
            runOnes_ones 126 rest
          have hexp : expandRuns (rest.take (runOnes 126 rest))
              = (rest.take (runOnes 126 rest)).map Prod.snd :=
            expandRuns_of_ones _ hones
          calc value :: (rest.take (runOnes 126 rest)).map Prod.snd
                ++ expandRuns (rest.drop (runOnes 126 rest))
              = value :: (expandRuns (rest.take (runOnes 126 rest))
                ++ expandRuns (rest.drop (runOnes 126 rest))) := by rw [hexp]; simp
            _ = value :: expandRuns rest := by
                rw [← expandRuns_append, List.take_append_drop]
            _ = expandRuns ((1, value) :: rest) := by simp
      · have hstream : pass2Fuel (g + 1) ((control, value) :: rest) =
            control :: value :: pass2Fuel g rest := by
          simp [pass2Fuel, hc]
        rw [hstream] at hf ⊢
        cases fuel with
        | zero => simp at hf
        | succ fu =>
          have hdec := ctrl_rep_decode control (by omega)
          simp only [uncompressFuel, hdec.1, hdec.2]
          rw [if_neg (by omega)]
          have hrec := ih rest hrestl hrestp fu
            (by simp only [List.length_cons] at hf; omega)
          rw [hrec]
          simp [expandRuns_cons]

/-- The codec round trip, for arbitrary inputs. -/
lemma uncompress_compress (x : List Nat) : uncompress (compress x) = some x := by
  obtain ⟨h1, h2⟩ := pass1Fuel_spec x.length x le_rfl
  have := uncompressFuel_pass2 (pass1 x).length (pass1 x) le_rfl
    (by simpa [pass1] using h2) (pass2 (pass1 x)).length le_rfl
  simpa [uncompress, compress, pass2, pass1, h1] using this

end Kyria

namespace Kyria

/-- C1: for every byte sequence `x` (empty, single-byte, long runs and long
literal stretches included), decompressing the result of compressing `x`
yields `x` again: `uncompress (compress x) = some x`. -/
theorem compress_uncompress_roundtrip (x : List Nat) (hx : ∀ b ∈ x, b < 256) :
    uncompress (compress x) = some x :=
  uncompress_compress x

/-- Witness for `compress_uncompress_roundtrip` at a concrete input mixing a
run and a literal stretch. -/
theorem compress_uncompress_roundtrip_witness :
    uncompress (compress [5, 5, 5, 1, 2, 3]) = some [5, 5, 5, 1, 2, 3] :=
  compress_uncompress_roundtrip [5, 5, 5, 1, 2, 3] (by decide)

end Kyria

namespace Kyria

lemma runLen_replicate (base : Nat) : ∀ (cap k : Nat),
    runLen base cap (List.replicate k base) = min cap k := by
  intro cap
  induction cap with
  | zero => intro k; cases k <;> simp [runLen, List.replicate_succ]
  | succ c ih =>
    intro k
    cases k with
    | zero => simp [runLen]
    | succ k' =>
      rw [List.replicate_succ]
      simp only [runLen, if_pos rfl, if_true, ih k']
      omega

/-- The first pass on a pure run of 128 identical bytes: a capped record of
length 127 followed by a record of length 1. -/
lemma pass1_replicate_128 (b : Nat) : pass1 (List.replicate 128 b) = [(127, b), (1, b)] := by
  have hlen : (List.replicate 128 b).length = 128 := by simp
  have hcons : List.replicate 128 b = b :: List.replicate 127 b := rfl
  have hrl : runLen b 126 (List.replicate 127 b) = 126 := by
    rw [runLen_replicate]; decide
  have hdrop : (List.replicate 127 b).drop 126 = [b] := rfl
  show pass1Fuel (List.replicate 128 b).length (List.replicate 128 b) = _
  rw [hlen, hcons, show (128 : Nat) = 127 + 1 from rfl]
  simp only [pass1Fuel, hrl, hdrop]
  exact rfl

/-- C4 (amended): compressing a run of exactly 128 identical bytes yields a
repeat-mode record with count 127 followed by a *literal-mode* record with
count 1 (control byte `0b1000_0001 = 129`), i.e. `[127, b, 129, b]` — the
second pass rewrites every count-1 record into literal mode. -/
theorem compress_run_128 (b : Nat) :
    compress (List.replicate 128 b) = [127, b, 129, b] := by
  show pass2 (pass1 (List.replicate 128 b)) = _
  rw [pass1_replicate_128]
  exact rfl

/-- C4 (counterexample): a run of 128 zeros does not compress to the two
repeat-mode records `[127, 0, 1, 0]` the claim describes; the second record
comes out in literal mode, as `[127, 0, 129, 0]`. -/
theorem compress_run_128_not_two_repeats :
    compress (List.replicate 128 0) ≠ [127, 0, 1, 0] ∧
    compress (List.replicate 128 0) = [127, 0, 129, 0] := by
  constructor
  · intro h
    have := compress_run_128 0
    rw [this] at h
    simp at h
  · exact compress_run_128 0

/-- C5 (amended): a one-byte input compresses to a 2-byte *literal-mode*
encoding — control byte `0b1000_0001 = 129` (mode bit 1, count 1) followed
by the byte — and the empty input compresses to the empty output. -/
theorem compress_singleton_and_empty (b : Nat) :
    compress [b] = [129, b] ∧ compress [] = [] := by
  constructor
  · show pass2 (pass1 [b]) = _
    rw [show pass1 [b] = [(1, b)] from rfl]
    exact rfl
  · rfl

/-- C5 (counterexample): `compress [0]` is `[129, 0]`, a literal-mode
record, not the repeat-mode encoding `[1, 0]` (control byte with mode bit 0
and count 1) promised by the claim. -/
theorem compress_singleton_not_repeat_mode :
    compress [0] ≠ [1, 0] ∧ compress [0] = [129, 0] := by
  decide

end Kyria

namespace Kyria

/-! ## Byte-diff transform (C3, C8) -/

/-- `wrapping_sub` computes byte subtraction modulo 256. -/
lemma wrappingSub_int (a b : Nat) :
    (wrappingSub a b : Int) = ((a : Int) - (b : Int)) % 256 := by
  unfold wrappingSub
  have ha : a % 256 < 256 := Nat.mod_lt _ (by omega)
  have hb : b % 256 < 256 := Nat.mod_lt _ (by omega)
  have hamod := Nat.mod_add_div a 256
  have hbmod := Nat.mod_add_div b 256
  push_cast
  omega

lemma wrappingSub_self_inverse (b o : Nat) (ho : o < 256) :
    wrappingSub b (wrappingSub b o) = o := by
  unfold wrappingSub
  omega

lemma diff_length (base other : List Nat) :
    (diff base other).length = min base.length other.length := by
  simp [diff]

lemma diff_getD (base other : List Nat) (i : Nat) (h1 : i < base.length)
    (h2 : i < other.length) :
    (diff base other).getD i 0 = wrappingSub (base.getD i 0) (other.getD i 0) := by
  have hd : i < (diff base other).length := by
    rw [diff_length]; omega
  have h := @List.getElem?_zipWith _ _ _ base other (fun b o => wrappingSub b o) i
  rw [List.getElem?_eq_getElem h1, List.getElem?_eq_getElem h2] at h
  simp only [List.getD_eq_getElem?_getD, diff, h,
    List.getElem?_eq_getElem h1, List.getElem?_eq_getElem h2, Option.getD_some]

lemma undiff_diff (base : List Nat) : ∀ (other : List Nat),
    base.length = other.length → (∀ x ∈ other, x < 256) →
    undiff base (diff base other) = some other := by
  induction base with
  | nil =>
    intro other h _
    rw [(List.length_eq_zero.mp h.symm)]
    rfl
  | cons b bs ih =>
    intro other h hx
    cases other with
    | nil => simp at h
    | cons o os =>
      have hlen : bs.length = os.length := by
        simp only [List.length_cons] at h; omega
      have hrec := ih os hlen (fun x hxm => hx x (List.mem_cons_of_mem _ hxm))
      simp only [diff, List.zipWith_cons_cons, undiff]
      rw [show List.zipWith (fun b o => wrappingSub b o) bs os = diff bs os from rfl, hrec]
      simp [wrappingSub_self_inverse b o (hx o (List.mem_cons_self _ _))]

end Kyria

namespace Kyria

/-- C3: for equal-length byte sequences, `diff` produces the element-wise
wrapping difference `(base[i] - other[i]) mod 256`, and `undiff` applied to
`base` and that delta recovers `other` exactly. -/
theorem diff_delta_and_undiff (base other : List Nat)
    (hlen : base.length = other.length) (hbytes : ∀ x ∈ other, x < 256) :
    (∀ i, i < base.length →
      ((diff base other).getD i 0 : Int) =
        ((base.getD i 0 : Int) - (other.getD i 0 : Int)) % 256) ∧
    undiff base (diff base other) = some other := by
  constructor
  · intro i hi
    rw [diff_getD base other i hi (by omega), wrappingSub_int]
  · exact undiff_diff base other hlen hbytes

/-- Witness for `diff_delta_and_undiff` on a concrete pair. -/
theorem diff_delta_and_undiff_witness :
    ((diff [1, 2, 3] [1, 2, 5]).getD 2 0 : Int) =
      (((3 : Nat) : Int) - ((5 : Nat) : Int)) % 256 ∧
    undiff [1, 2, 3] (diff [1, 2, 3] [1, 2, 5]) = some [1, 2, 5] := by
  have h := diff_delta_and_undiff [1, 2, 3] [1, 2, 5] (by decide) (by decide)
  exact ⟨h.1 2 (by decide), h.2⟩

/-- C8 (counterexample): calling `diff` on inputs of unequal length (base
of length 2 against a target of length 1) reports no error at all; it
silently returns the truncated one-element delta `[252]`. -/
theorem diff_length_mismatch_silently_truncates :
    diff [1, 2] [5] = [252] ∧ (diff [1, 2] [5]).length < ([1, 2] : List Nat).length := by
  decide

/-- C8 (amended): `diff` never reports a length mismatch; `zip` stops at
the shorter input, so the delta always has length
`min base.length other.length` — unequal-length inputs are silently
truncated, not rejected. -/
theorem diff_truncates_to_min_length (base other : List Nat) :
    (diff base other).length = min base.length other.length :=
  diff_length base other

end Kyria

namespace Kyria

/-! ## The two decompressors agree (C10) -/

lemma writeSeq_length : ∀ (vs out : List Nat) (pos : Nat),
    (writeSeq out pos vs).length = out.length := by
  intro vs
  induction vs with
  | nil => intro out pos; rfl
  | cons v vs ih =>
    intro out pos
    simp only [writeSeq]
    rw [ih]
    simp

lemma writeSeq_append (a b : List Nat) : ∀ (out : List Nat) (pos : Nat),
    writeSeq out pos (a ++ b) = writeSeq (writeSeq out pos a) (pos + a.length) b := by
  induction a with
  | nil => intro out pos; simp [writeSeq]
  | cons v vs ih =>
    intro out pos
    simp only [List.cons_append, writeSeq]
    rw [show pos + (v :: vs).length = (pos + 1) + vs.length from by
      simp only [List.length_cons]; omega]
    exact ih (out.set pos v) (pos + 1)

lemma take_succ_set (out : List Nat) : ∀ (pos v : Nat), pos < out.length →
    (out.set pos v).take (pos + 1) = out.take pos ++ [v] := by
  induction out with
  | nil => intro pos v h; simp at h
  | cons a out ih =>
    intro pos v h
    cases pos with
    | zero => simp
    | succ p =>
      simp only [List.set_cons_succ, List.take_succ_cons]
      rw [ih p v (by simp only [List.length_cons] at h; omega)]
      simp

/-- Writing `vs` at position `pos` replaces the slice
`out[pos .. pos + vs.length)`. -/
lemma writeSeq_spec : ∀ (vs out : List Nat) (pos : Nat), pos + vs.length ≤ out.length →
    writeSeq out pos vs = out.take pos ++ vs ++ out.drop (pos + vs.length) := by
  intro vs
  induction vs with
  | nil =>
    intro out pos h
    simp only [writeSeq, List.length_nil, Nat.add_zero, List.append_nil]
    rw [List.take_append_drop]
  | cons v vs ih =>
    intro out pos h
    have hpos : pos < out.length := by simp only [List.length_cons] at h; omega
    simp only [writeSeq]
    rw [ih (out.set pos v) (pos + 1)
      (by simp only [List.length_set, List.length_cons] at h ⊢; omega)]
    rw [take_succ_set out pos v hpos]
    rw [List.drop_set]
    rw [if_pos (by omega)]
    rw [show pos + 1 + vs.length = pos + (v :: vs).length from by
      simp only [List.length_cons]; omega]
    simp

/-- `uncompress2` on a second-pass stream writes the records' expansion at
the current output position. -/
lemma uncompress2Fuel_pass2 :
    ∀ (g : Nat) (l : List (Nat × Nat)), l.length ≤ g →
    (∀ p ∈ l, 1 ≤ p.1 ∧ p.1 ≤ 127) →
    ∀ (fuel pos : Nat) (out : List Nat), (pass2Fuel g l).length ≤ fuel →
    pos + (expandRuns l).length ≤ out.length →
    uncompress2Fuel fuel (pass2Fuel g l) pos out = some (writeSeq out pos (expandRuns l)) := by
  intro g
  induction g with
  | zero =>
    intro l hl _ fuel pos out _ _
    rw [List.length_eq_zero.mp (Nat.le_zero.mp hl)]
    simp [pass2Fuel, uncompress2Fuel, writeSeq]
  | succ g ih =>
    intro l hl hp fuel pos out hf hout
    cases l with
    | nil => simp [pass2Fuel, uncompress2Fuel, writeSeq]
    | cons cv rest =>
      obtain ⟨control, value⟩ := cv
      have hcv := hp (control, value) (List.mem_cons_self _ _)
      have hrestp : ∀ p ∈ rest, 1 ≤ p.1 ∧ p.1 ≤ 127 :=
        fun p hq => hp p (List.mem_cons_of_mem _ hq)
      have hrestl : rest.length ≤ g := by
        simp only [List.length_cons] at hl; omega
      by_cases hc : control = 1
      · subst hc
        have hcap := runOnes_le_cap 126 rest
        have hlen := runOnes_le_length 126 rest
        have hstream : pass2Fuel (g + 1) ((1, value) :: rest) =
            Nat.lor ((runOnes 126 rest + 1) % 256) 128 :: value ::
              ((rest.take (runOnes 126 rest)).map Prod.snd
                ++ pass2Fuel g (rest.drop (runOnes 126 rest))) := by
          simp [pass2Fuel]
        have hones : ∀ p ∈ rest.take (runOnes 126 rest), p.1 = 1 :=
          runOnes_ones 126 rest
        have hexp : expandRuns (rest.take (runOnes 126 rest))
            = (rest.take (runOnes 126 rest)).map Prod.snd :=
          expandRuns_of_ones _ hones
        have hmaplen : ((rest.take (runOnes 126 rest)).map Prod.snd).length
            = runOnes 126 rest := by
          simp [List.length_take, Nat.min_eq_left hlen]
        have hsplit : expandRuns ((1, value) :: rest) =
            (value :: (rest.take (runOnes 126 rest)).map Prod.snd)
              ++ expandRuns (rest.drop (runOnes 126 rest)) := by
          calc expandRuns ((1, value) :: rest)
              = value :: expandRuns rest := by simp
            _ = value :: (expandRuns (rest.take (runOnes 126 rest))
                  ++ expandRuns (rest.drop (runOnes 126 rest))) := by
                rw [← expandRuns_append, List.take_append_drop]
            _ = _ := by rw [hexp]; simp
        have hexplen : (expandRuns ((1, value) :: rest)).length
            = runOnes 126 rest + 1 + (expandRuns (rest.drop (runOnes 126 rest))).length := by
          rw [hsplit]
          simp only [List.length_append, List.length_cons, hmaplen]
          try omega
        rw [hstream] at hf ⊢
        cases fuel with
        | zero => simp at hf
        | succ fu =>
          have hdec := ctrl_lit_decode (runOnes 126 rest) (by omega)
          simp only [uncompress2Fuel, hdec.1, hdec.2, ne_eq]
          rw [if_pos (show ¬(1 : Nat) = 0 from by omega)]
          have hcond : runOnes 126 rest + 1 ≤
              (value :: ((rest.take (runOnes 126 rest)).map Prod.snd
                ++ pass2Fuel g (rest.drop (runOnes 126 rest)))).length ∧
              pos + (runOnes 126 rest + 1) ≤ out.length := by
            constructor
            · simp only [List.length_cons, List.length_append, hmaplen]
              omega
            · rw [hexplen] at hout; omega
          rw [if_pos hcond]
          have htake : (value :: ((rest.take (runOnes 126 rest)).map Prod.snd
                ++ pass2Fuel g (rest.drop (runOnes 126 rest)))).take (runOnes 126 rest + 1)
              = value :: (rest.take (runOnes 126 rest)).map Prod.snd := by
            rw [List.take_succ_cons, List.take_left' hmaplen]
          have hdrop : (value :: ((rest.take (runOnes 126 rest)).map Prod.snd
                ++ pass2Fuel g (rest.drop (runOnes 126 rest)))).drop (runOnes 126 rest + 1)
              = pass2Fuel g (rest.drop (runOnes 126 rest)) := by
            rw [List.drop_succ_cons, List.drop_left' hmaplen]
          rw [htake, hdrop]
          have hrec := ih (rest.drop (runOnes 126 rest))
            (by simp only [List.length_drop]; omega)
            (fun p hq => hrestp p (List.mem_of_mem_drop hq))
            fu (pos + (runOnes 126 rest + 1))
            (writeSeq out pos (value :: (rest.take (runOnes 126 rest)).map Prod.snd))
            (by
              simp only [List.length_cons, List.length_append, hmaplen] at hf
              omega)
            (by
              rw [writeSeq_length]
              rw [hexplen] at hout
              omega)
          rw [hrec]
          rw [hsplit, writeSeq_append]
          rw [show (value :: (rest.take (runOnes 126 rest)).map Prod.snd).length
            = runOnes 126 rest + 1 from by simp only [List.length_cons, hmaplen]]
      · have hstream : pass2Fuel (g + 1) ((control, value) :: rest) =
            control :: value :: pass2Fuel g rest := by
          simp [pass2Fuel, hc]
        have hsplit : expandRuns ((control, value) :: rest) =
            List.replicate control value ++ expandRuns rest := by simp
        have hexplen : (expandRuns ((control, value) :: rest)).length
            = control + (expandRuns rest).length := by
          rw [hsplit]; simp
        rw [hstream] at hf ⊢
        cases fuel with
        | zero => simp at hf
        | succ fu =>
          have hdec := ctrl_rep_decode control (by omega)
          simp only [uncompress2Fuel, hdec.1, hdec.2, ne_eq]
          rw [if_neg (not_not_intro trivial)]
          have hcond : pos + control ≤ out.length := by
            rw [hexplen] at hout; omega
          rw [if_pos hcond]
          have hrec := ih rest hrestl hrestp fu (pos + control)
            (writeSeq out pos (List.replicate control value))
            (by simp only [List.length_cons] at hf; omega)
            (by rw [writeSeq_length]; rw [hexplen] at hout; omega)
          rw [hrec]
          rw [hsplit, writeSeq_append]
          rw [List.length_replicate]

end Kyria

namespace Kyria

/-- C10: the two decompressor implementations agree — for every stream
produced by `compress` and every sufficiently large output buffer,
`uncompress2` writes exactly the bytes `uncompress` returns into positions
`0..n`, leaving the rest of the buffer untouched. -/
theorem uncompress2_matches_uncompress (x out : List Nat)
    (hx : ∀ b ∈ x, b < 256) (hlen : x.length ≤ out.length) :
    ∃ r, uncompress (compress x) = some r ∧
      uncompress2 (compress x) out = some (r ++ out.drop r.length) := by
  refine ⟨x, uncompress_compress x, ?_⟩
  obtain ⟨h1, h2⟩ := pass1Fuel_spec x.length x le_rfl
  have hmain := uncompress2Fuel_pass2 (pass1 x).length (pass1 x) le_rfl
    (by simpa [pass1] using h2) (pass2 (pass1 x)).length 0 out le_rfl
    (by
      rw [show expandRuns (pass1 x) = x from by simpa [pass1] using h1]
      omega)
  rw [show expandRuns (pass1 x) = x from by simpa [pass1] using h1] at hmain
  rw [writeSeq_spec x out 0 (by omega)] at hmain
  simpa [uncompress2, compress, pass2, pass1] using hmain

/-- Witness for `uncompress2_matches_uncompress` on a concrete stream and
buffer. -/
theorem uncompress2_matches_uncompress_witness :
    ∃ r, uncompress (compress [1, 2, 3]) = some r ∧
      uncompress2 (compress [1, 2, 3]) [9, 9, 9, 9, 9] = some (r ++ [9, 9, 9, 9, 9].drop r.length) :=
  uncompress2_matches_uncompress [1, 2, 3] [9, 9, 9, 9, 9] (by decide) (by decide)

end Kyria

namespace Kyria

/-! ## Minimal-total-size base selection (C6) -/

/-- `min_by_key` over `enumFrom`: it returns the earliest entry whose key
attains the minimum. -/
lemma minByFirst_enumFrom_spec : ∀ (s : List Nat) (k : Nat), s ≠ [] →
    ∃ i, i < s.length ∧ minByFirst (s.enumFrom k) = some (k + i, s.getD i 0) ∧
      (∀ j, j < s.length → s.getD i 0 ≤ s.getD j 0) ∧
      (∀ j, j < i → s.getD i 0 < s.getD j 0) := by
  intro s
  induction s with
  | nil => intro k h; exact absurd rfl h
  | cons a t ih =>
    intro k _
    cases t with
    | nil =>
      refine ⟨0, by simp, ?_, ?_, ?_⟩
      · simp [minByFirst]
      · intro j hj
        have hj0 : j = 0 := by simp at hj; omega
        subst hj0
        simp
      · intro j hj; omega
    | cons b u =>
      obtain ⟨i, hi, hmin, hle, hlt⟩ := ih (k + 1) (by simp)
      rw [List.enumFrom_cons, minByFirst, hmin]
      dsimp only
      by_cases hcmp : (b :: u).getD i 0 < a
      · refine ⟨i + 1, by simpa using hi, ?_, ?_, ?_⟩
        · rw [if_pos (by simpa using hcmp)]
          rw [show k + 1 + i = k + (i + 1) from by omega]
          simp
        · intro j hj
          cases j with
          | zero => simpa using le_of_lt hcmp
          | succ j' =>
            simp only [List.getD_cons_succ]
            exact hle j' (by simpa using hj)
        · intro j hj
          cases j with
          | zero => simpa using hcmp
          | succ j' =>
            simp only [List.getD_cons_succ]
            exact hlt j' (by omega)
      · refine ⟨0, by simp, ?_, ?_, ?_⟩
        · rw [if_neg (by simpa using hcmp)]
          simp
        · intro j hj
          cases j with
          | zero => simp
          | succ j' =>
            simp only [List.getD_cons_zero, List.getD_cons_succ]
            have h1 : a ≤ (b :: u).getD i 0 := by omega
            exact le_trans h1 (hle j' (by simpa using hj))
        · intro j hj; omega

lemma getD_map_size (between : List (List Nat)) (i : Nat) (h : i < between.length) :
    (between.map (fun frame => compute_size_from_base frame between)).getD i 0
      = compute_size_from_base (between.getD i []) between := by
  rw [List.getD_eq_getElem?_getD, List.getD_eq_getElem?_getD,
    List.getElem?_eq_getElem (by simpa using h), List.getElem?_eq_getElem h]
  simp

end Kyria

namespace Kyria

/-- C6: on a non-empty corpus of equal-length frames, `generate_base_frame`
returns an actual corpus member whose total compressed size
(`compute_size_from_base`) is minimal — in particular no larger than the
total obtained by picking the first corpus member — and among tied
candidates it is the one occurring first in corpus order. -/
theorem generate_base_frame_minimal (between : List (List Nat))
    (hne : between ≠ [])
    (heq : ∀ f ∈ between, f.length = (between.getD 0 []).length) :
    ∃ i, i < between.length ∧
      generate_base_frame between = some (between.getD i []) ∧
      (∀ j, j < between.length →
        compute_size_from_base (between.getD i []) between ≤
          compute_size_from_base (between.getD j []) between) ∧
      compute_size_from_base (between.getD i []) between ≤
        compute_size_from_base (between.getD 0 []) between ∧
      (∀ j, j < i →
        compute_size_from_base (between.getD i []) between <
          compute_size_from_base (between.getD j []) between) := by
  set s := between.map (fun frame => compute_size_from_base frame between) with hs
  have hsne : s ≠ [] := by
    simpa [hs] using hne
  have hslen : s.length = between.length := by simp [hs]
  obtain ⟨i, hi, hmin, hle, hlt⟩ := minByFirst_enumFrom_spec s 0 hsne
  rw [hslen] at hi
  refine ⟨i, hi, ?_, ?_, ?_, ?_⟩
  · unfold generate_base_frame
    rw [show (between.map (fun frame => compute_size_from_base frame between)).enum
        = s.enumFrom 0 from by rw [← hs]; rfl, hmin]
    dsimp only
    rw [List.get?_eq_getElem?, Nat.zero_add, List.getElem?_eq_getElem hi]
    rw [List.getD_eq_getElem?_getD, List.getElem?_eq_getElem hi]
    simp
  · intro j hj
    have := hle j (by omega)
    rwa [getD_map_size between i hi, getD_map_size between j hj] at this
  · have h0 : 0 < between.length := by
      cases between with
      | nil => exact absurd rfl hne
      | cons x xs => simp
    have := hle 0 (by omega)
    rwa [getD_map_size between i hi, getD_map_size between 0 h0] at this
  · intro j hj
    have := hlt j hj
    rwa [getD_map_size between i hi, getD_map_size between j (by omega)] at this

/-- Witness for `generate_base_frame_minimal` on a concrete three-frame
corpus. -/
theorem generate_base_frame_minimal_witness :
    ∃ i, i < ([[0], [1], [1]] : List (List Nat)).length ∧
      generate_base_frame [[0], [1], [1]] = some (([[0], [1], [1]] : List (List Nat)).getD i []) ∧
      (∀ j, j < ([[0], [1], [1]] : List (List Nat)).length →
        compute_size_from_base (([[0], [1], [1]] : List (List Nat)).getD i []) [[0], [1], [1]] ≤
          compute_size_from_base (([[0], [1], [1]] : List (List Nat)).getD j []) [[0], [1], [1]]) ∧
      compute_size_from_base (([[0], [1], [1]] : List (List Nat)).getD i []) [[0], [1], [1]] ≤
        compute_size_from_base (([[0], [1], [1]] : List (List Nat)).getD 0 []) [[0], [1], [1]] ∧
      (∀ j, j < i →
        compute_size_from_base (([[0], [1], [1]] : List (List Nat)).getD i []) [[0], [1], [1]] <
          compute_size_from_base (([[0], [1], [1]] : List (List Nat)).getD j []) [[0], [1], [1]]) :=
  generate_base_frame_minimal [[0], [1], [1]] (by decide) (by decide)

end Kyria

namespace Kyria

/-- C9 (refutation of determinism): on the two-frame corpus `[[0], [1]]`
the single byte column is `[0, 1]`, where the values 0 and 1 are tied with
one occurrence each.  `[0, 1]` and `[1, 0]` are both valid `HashMap`
iteration orders for that column (each enumerates exactly the column's
distinct values), yet `find_suboptimal_base_frame` returns `[1]` under the
first order and `[0]` under the second: the result of the Rust function
depends on the per-process random hash seed, so two runs need not agree at
tied positions. -/
theorem find_suboptimal_base_frame_order_dependent :
    find_suboptimal_base_frame (fun _ => [0, 1]) [[0], [1]] = some [1] ∧
    find_suboptimal_base_frame (fun _ => [1, 0]) [[0], [1]] = some [0] ∧
    ([0, 1] : List Nat).Nodup ∧ ([1, 0] : List Nat).Nodup ∧
    (∀ v, v ∈ ([0, 1] : List Nat) ↔ v ∈ ([1, 0] : List Nat)) ∧
    some [1] ≠ some [0] := by
  refine ⟨by decide, by decide, by decide, by decide, ?_, by decide⟩
  intro v
  constructor
  · intro h
    rcases List.mem_cons.mp h with h | h
    · simp [h]
    · simp at h; simp [h]
  · intro h
    rcases List.mem_cons.mp h with h | h
    · simp [h]
    · simp at h; simp [h]

end Kyria

namespace Kyria

set_option maxHeartbeats 1000000

/-! ## Trailing-zero truncation (C7) -/

/-- `findIdx?` success, phrased through `getElem?`. -/
lemma findIdx?_some_spec (p : Nat → Bool) (l : List Nat) (j : Nat)
    (h : l.findIdx? p = some j) :
    j < l.length ∧ (∀ v, l[j]? = some v → p v = true) ∧
      ∀ k, k < j → ∀ v, l[k]? = some v → p v = false := by
  obtain ⟨hlt, hpj, hprev⟩ := List.findIdx?_eq_some_iff_getElem.mp h
  refine ⟨hlt, ?_, ?_⟩
  · intro v hv
    rw [List.getElem?_eq_getElem hlt, Option.some.injEq] at hv
    rw [← hv]
    exact hpj
  · intro k hk v hv
    rw [List.getElem?_eq_getElem (by omega : k < l.length), Option.some.injEq] at hv
    rw [← hv]
    simpa using hprev k hk

/-- When `rposition` finds no nonzero byte, nothing is truncated and the
whole array is zero. -/
lemma truncTrailingZeros_all_zero (l : List Nat)
    (h : l.reverse.findIdx? (fun x => x != 0) = none) :
    truncTrailingZeros l = l ∧ ∀ b ∈ l, b = 0 := by
  constructor
  · unfold truncTrailingZeros rposition
    rw [h]
    rfl
  · intro b hb
    have := List.findIdx?_eq_none_iff.mp h b (by simpa using hb)
    simpa using this

/-- When `rposition` finds the last nonzero byte at reverse index `j`, the
truncated array is the prefix up to it, the dropped suffix is `j` zeros,
and the truncated array ends in that nonzero byte. -/
lemma truncTrailingZeros_some (l : List Nat) (j : Nat)
    (h : l.reverse.findIdx? (fun x => x != 0) = some j) :
    j < l.length ∧
    l = truncTrailingZeros l ++ List.replicate j 0 ∧
    (truncTrailingZeros l).getLast? ≠ some 0 := by
  obtain ⟨hjlt, hpj, hprev⟩ := findIdx?_some_spec _ _ _ h
  have hjl : j < l.length := by simpa using hjlt
  have htr : truncTrailingZeros l = l.take (l.length - j) := by
    unfold truncTrailingZeros rposition
    rw [h]
    simp only [Option.map_some']
    rw [show l.length - 1 - j + 1 = l.length - j from by omega]
  have hlen_take : (l.take (l.length - j)).length = l.length - j := by
    simp only [List.length_take]
    omega
  refine ⟨hjl, ?_, ?_⟩
  · rw [htr]
    have hdrop0 : ∀ b ∈ l.drop (l.length - j), b = 0 := by
      intro b hb
      obtain ⟨n, hn, hbn⟩ := List.mem_iff_getElem.mp hb
      have hlen_drop : (l.drop (l.length - j)).length = j := by
        simp only [List.length_drop]
        omega
      have hnj : n < j := by omega
      have hb? : l[l.length - j + n]? = some b := by
        rw [← List.getElem?_drop, List.getElem?_eq_getElem hn, hbn]
      have hrev : l.reverse[j - 1 - n]? = l[l.length - 1 - (j - 1 - n)]? :=
        List.getElem?_reverse (by omega)
      rw [show l.length - 1 - (j - 1 - n) = l.length - j + n from by omega, hb?] at hrev
      have := hprev (j - 1 - n) (by omega) b hrev
      simpa using this
    have hrep : l.drop (l.length - j) = List.replicate j 0 := by
      have hr := List.eq_replicate_of_mem (fun b hb => hdrop0 b hb)
      rw [hr]
      congr 1
      simp only [List.length_drop]
      omega
    calc l = l.take (l.length - j) ++ l.drop (l.length - j) := (List.take_append_drop _ _).symm
      _ = l.take (l.length - j) ++ List.replicate j 0 := by rw [hrep]
  · rw [htr, List.getLast?_eq_getElem?, hlen_take]
    have hlast : (l.take (l.length - j))[l.length - j - 1]? = l[l.length - j - 1]? :=
      List.getElem?_take_of_lt (by omega)
    have hrevj : l.reverse[j]? = l[l.length - 1 - j]? := List.getElem?_reverse hjl
    rw [List.getElem?_eq_getElem (by omega : l.length - 1 - j < l.length)] at hrevj
    have hpv := hpj (l.get ⟨l.length - 1 - j, by omega⟩) (by simpa using hrevj)
    rw [hlast, show l.length - j - 1 = l.length - 1 - j from by omega,
      List.getElem?_eq_getElem (by omega : l.length - 1 - j < l.length)]
    intro hcontra
    rw [Option.some.injEq] at hcontra
    have hpv0 : (l.get ⟨l.length - 1 - j, by omega⟩ : Nat) = 0 := hcontra
    rw [hpv0] at hpv
    simp at hpv

/-- Every truncated array is the original minus an all-zero suffix. -/
lemma truncTrailingZeros_split (l : List Nat) :
    ∃ z, l = truncTrailingZeros l ++ List.replicate z 0 := by
  cases h : l.reverse.findIdx? (fun x => x != 0) with
  | none =>
    refine ⟨0, ?_⟩
    rw [(truncTrailingZeros_all_zero l h).1]
    simp
  | some j =>
    exact ⟨j, (truncTrailingZeros_some l j h).2.1⟩

lemma truncTrailingZeros_last_spec (l : List Nat) :
    truncTrailingZeros l = [] ∨ (truncTrailingZeros l).getLast? ≠ some 0 ∨
      (truncTrailingZeros l = l ∧ ∀ b ∈ l, b = 0) := by
  cases h : l.reverse.findIdx? (fun x => x != 0) with
  | none => exact Or.inr (Or.inr (truncTrailingZeros_all_zero l h))
  | some j => exact Or.inr (Or.inl (truncTrailingZeros_some l j h).2.2)

/-- Inversion for `Frame.output`: a successful pack is the truncation of
the raw band-major byte list. -/
lemma output_eq_trunc (m : List (List Nat)) (bytes : List Nat)
    (h : Frame.output m = some bytes) :
    ∃ res, bytes = truncTrailingZeros res := by
  simp only [Frame.output, Option.bind_eq_bind, Option.bind_eq_some, Option.pure_def,
    Option.some.injEq] at h
  obtain ⟨r0, _, bands, _, hres⟩ := h
  exact ⟨bands.flatten, hres.symm⟩

end Kyria

namespace Kyria

/-- C7 (counterexample): on the all-zero 8×1 matrix the packer returns
`some [0]` — a non-empty byte array whose last byte is zero — because
`rposition` finds no nonzero byte, so the truncation branch is skipped and
the claim "the result is either empty or its last byte is nonzero"
fails. -/
theorem output_all_zero_not_stripped :
    Frame.output (List.replicate 8 [0]) = some [0] ∧
    ¬(([0] : List Nat) = [] ∨ ([0] : List Nat).getLast? ≠ some 0) := by
  constructor
  · rfl
  · intro h
    rcases h with h | h
    · simp at h
    · exact h rfl

/-- C7 (amended): the packed array has its trailing zero bytes stripped
whenever it contains a nonzero byte — then it is empty or ends in a
nonzero byte — but an all-zero packed array is returned whole, trailing
zeros included. -/
theorem output_strips_trailing_zeros (m : List (List Nat)) (bytes : List Nat)
    (h : Frame.output m = some bytes) :
    bytes = [] ∨ bytes.getLast? ≠ some 0 ∨ ∀ b ∈ bytes, b = 0 := by
  obtain ⟨res, hres⟩ := output_eq_trunc m bytes h
  rcases truncTrailingZeros_last_spec res with h1 | h1 | h1
  · exact Or.inl (hres.trans h1)
  · exact Or.inr (Or.inl (by rw [hres]; exact h1))
  · refine Or.inr (Or.inr ?_)
    intro b hb
    rw [hres, h1.1] at hb
    exact h1.2 b hb

/-- Witness for `output_strips_trailing_zeros` on a concrete matrix whose
packed form is a single nonzero byte. -/
theorem output_strips_trailing_zeros_witness :
    ([255] : List Nat) = [] ∨ ([255] : List Nat).getLast? ≠ some 0 ∨
      ∀ b ∈ ([255] : List Nat), b = 0 :=
  output_strips_trailing_zeros (List.replicate 8 [1]) [255] rfl

end Kyria

namespace Kyria

/-! ## Bit-plane packer round trip (C2) -/

/-- Pixel access with default 0: `mget m i j` is `m[i][j]` where every
missing entry reads as 0. -/
def mget (m : List (List Nat)) (i j : Nat) : Nat := (m.getD i []).getD j 0

/-- `m` is a rectangular `height × width` matrix. -/
def Rect (m : List (List Nat)) (height width : Nat) : Prop :=
  m.length = height ∧ ∀ row ∈ m, row.length = width

/-- Bit `r` of a byte, as `Frame::new` extracts it: `(b >> r) & 1`. -/
def bitOfByte (b r : Nat) : Nat := ((b % 256) >>> r) &&& 1

/-- The packed byte `Frame::output` builds from the eight pixels of one
column of one band. -/
def encByte (b0 b1 b2 b3 b4 b5 b6 b7 : Nat) : Nat :=
  Nat.lor (Nat.lor (Nat.lor (Nat.lor (Nat.lor (Nat.lor (Nat.lor b0
    ((b1 <<< 1) % 256)) ((b2 <<< 2) % 256)) ((b3 <<< 3) % 256)) ((b4 <<< 4) % 256))
    ((b5 <<< 5) % 256)) ((b6 <<< 6) % 256)) ((b7 <<< 7) % 256)

/-- For binary pixels, extracting bit `r` from the packed byte returns the
`r`-th pixel. -/
lemma encByte_bits_fin : ∀ b0 b1 b2 b3 b4 b5 b6 b7 : Fin 2,
    bitOfByte (encByte b0.val b1.val b2.val b3.val b4.val b5.val b6.val b7.val) 0 = b0.val ∧
    bitOfByte (encByte b0.val b1.val b2.val b3.val b4.val b5.val b6.val b7.val) 1 = b1.val ∧
    bitOfByte (encByte b0.val b1.val b2.val b3.val b4.val b5.val b6.val b7.val) 2 = b2.val ∧
    bitOfByte (encByte b0.val b1.val b2.val b3.val b4.val b5.val b6.val b7.val) 3 = b3.val ∧
    bitOfByte (encByte b0.val b1.val b2.val b3.val b4.val b5.val b6.val b7.val) 4 = b4.val ∧
    bitOfByte (encByte b0.val b1.val b2.val b3.val b4.val b5.val b6.val b7.val) 5 = b5.val ∧
    bitOfByte (encByte b0.val b1.val b2.val b3.val b4.val b5.val b6.val b7.val) 6 = b6.val ∧
    bitOfByte (encByte b0.val b1.val b2.val b3.val b4.val b5.val b6.val b7.val) 7 = b7.val := by
  decide

lemma encByte_bits (b0 b1 b2 b3 b4 b5 b6 b7 : Nat) (h0 : b0 < 2) (h1 : b1 < 2)
    (h2 : b2 < 2) (h3 : b3 < 2) (h4 : b4 < 2) (h5 : b5 < 2) (h6 : b6 < 2) (h7 : b7 < 2) :
    bitOfByte (encByte b0 b1 b2 b3 b4 b5 b6 b7) 0 = b0 ∧
    bitOfByte (encByte b0 b1 b2 b3 b4 b5 b6 b7) 1 = b1 ∧
    bitOfByte (encByte b0 b1 b2 b3 b4 b5 b6 b7) 2 = b2 ∧
    bitOfByte (encByte b0 b1 b2 b3 b4 b5 b6 b7) 3 = b3 ∧
    bitOfByte (encByte b0 b1 b2 b3 b4 b5 b6 b7) 4 = b4 ∧
    bitOfByte (encByte b0 b1 b2 b3 b4 b5 b6 b7) 5 = b5 ∧
    bitOfByte (encByte b0 b1 b2 b3 b4 b5 b6 b7) 6 = b6 ∧
    bitOfByte (encByte b0 b1 b2 b3 b4 b5 b6 b7) 7 = b7 :=
  encByte_bits_fin ⟨b0, h0⟩ ⟨b1, h1⟩ ⟨b2, h2⟩ ⟨b3, h3⟩ ⟨b4, h4⟩ ⟨b5, h5⟩ ⟨b6, h6⟩ ⟨b7, h7⟩

@[simp] lemma bitOfByte_zero (r : Nat) : bitOfByte 0 r = 0 := by
  simp [bitOfByte]

lemma mget_eq_get (m : List (List Nat)) (i j : Nat) (hi : i < m.length)
    (hj : j < (m.get ⟨i, hi⟩).length) :
    mget m i j = (m.get ⟨i, hi⟩).get ⟨j, hj⟩ := by
  unfold mget
  rw [show m.getD i [] = m.get ⟨i, hi⟩ from by
    rw [List.getD_eq_getElem?_getD, List.getElem?_eq_getElem hi]; rfl]
  rw [List.getD_eq_getElem?_getD, List.getElem?_eq_getElem hj]
  rfl

lemma rect_ext (m1 m2 : List (List Nat)) (height width : Nat)
    (h1 : Rect m1 height width) (h2 : Rect m2 height width)
    (h : ∀ i j, i < height → j < width → mget m1 i j = mget m2 i j) : m1 = m2 := by
  apply List.ext_get (by rw [h1.1, h2.1])
  intro i hi1 hi2
  have hrow1 : (m1.get ⟨i, hi1⟩).length = width := h1.2 _ (List.get_mem _ _ _)
  have hrow2 : (m2.get ⟨i, hi2⟩).length = width := h2.2 _ (List.get_mem _ _ _)
  apply List.ext_get (by rw [hrow1, hrow2])
  intro j hj1 hj2
  rw [← mget_eq_get m1 i j hi1 hj1, ← mget_eq_get m2 i j hi2 hj2]
  have hih : i < height := by rw [← h1.1]; exact hi1
  have hjh : j < width := by rw [← hrow1]; exact hj1
  exact h i j hih hjh

/-- A successful in-bounds write, with its pointwise effect. -/
lemma set2?_spec (m : List (List Nat)) (i j v : Nat) (height width : Nat)
    (hm : Rect m height width) (hi : i < height) (hj : j < width) :
    ∃ m2, set2? m i j v = some m2 ∧ Rect m2 height width ∧
      ∀ i' j', mget m2 i' j' = if i' = i ∧ j' = j then v else mget m i' j' := by
  have him : i < m.length := by rw [hm.1]; exact hi
  have hrow : (m.get ⟨i, him⟩).length = width := hm.2 _ (List.get_mem _ _ _)
  have hjrow : j < (m.get ⟨i, him⟩).length := by rw [hrow]; exact hj
  refine ⟨m.set i ((m.get ⟨i, him⟩).set j v), ?_, ?_, ?_⟩
  · simp [set2?, List.get?_eq_getElem?, List.getElem?_eq_getElem him, hjrow]
    exact hjrow
  · constructor
    · rw [List.length_set, hm.1]
    · intro row hrowm
      rcases List.mem_or_eq_of_mem_set hrowm with hmem | heq
      · exact hm.2 row hmem
      · rw [heq, List.length_set]
        exact hrow
  · intro i' j'
    by_cases hii : i' = i
    · subst hii
      unfold mget
      rw [List.getD_eq_getElem?_getD (m.set i' _) _ _, List.getElem?_set_self him,
        Option.getD_some]
      by_cases hjj : j' = j
      · subst hjj
        rw [if_pos ⟨rfl, rfl⟩]
        rw [List.getD_eq_getElem?_getD, List.getElem?_set_self hjrow]
        rfl
      · rw [if_neg (by intro hcontra; exact hjj hcontra.2)]
        rw [List.getD_eq_getElem?_getD, List.getElem?_set_ne (by omega)]
        rw [List.getD_eq_getElem?_getD m _ _, List.getElem?_eq_getElem him]
        rw [Option.getD_some, List.getD_eq_getElem?_getD]
        rfl
    · rw [if_neg (by intro hcontra; exact hii hcontra.1)]
      unfold mget
      rw [List.getD_eq_getElem?_getD (m.set i _) _ _, List.getD_eq_getElem?_getD m _ _,
        List.getElem?_set_ne (by omega)]

end Kyria

namespace Kyria

set_option maxHeartbeats 2000000

/-- The eight writes of one packed byte land in rows `h*8 .. h*8+7` of
column `w`. -/
lemma applyByte_spec (m : List (List Nat)) (h w b : Nat) (height width : Nat)
    (hm : Rect m height width) (hh : h * 8 + 7 < height) (hw : w < width) :
    ∃ m2, applyByte m h w b = some m2 ∧ Rect m2 height width ∧
      ∀ i' j', mget m2 i' j' =
        if j' = w ∧ h * 8 ≤ i' ∧ i' < h * 8 + 8
        then bitOfByte b (i' - h * 8)
        else mget m i' j' := by
  obtain ⟨m1, e1, r1, p1⟩ :=
    set2?_spec m (h * 8) w (((b % 256) >>> 0) &&& 1) height width hm (by omega) hw
  obtain ⟨m2, e2, r2, p2⟩ :=
    set2?_spec m1 (h * 8 + 1) w (((b % 256) >>> 1) &&& 1) height width r1 (by omega) hw
  obtain ⟨m3, e3, r3, p3⟩ :=
    set2?_spec m2 (h * 8 + 2) w (((b % 256) >>> 2) &&& 1) height width r2 (by omega) hw
  obtain ⟨m4, e4, r4, p4⟩ :=
    set2?_spec m3 (h * 8 + 3) w (((b % 256) >>> 3) &&& 1) height width r3 (by omega) hw
  obtain ⟨m5, e5, r5, p5⟩ :=
    set2?_spec m4 (h * 8 + 4) w (((b % 256) >>> 4) &&& 1) height width r4 (by omega) hw
  obtain ⟨m6, e6, r6, p6⟩ :=
    set2?_spec m5 (h * 8 + 5) w (((b % 256) >>> 5) &&& 1) height width r5 (by omega) hw
  obtain ⟨m7, e7, r7, p7⟩ :=
    set2?_spec m6 (h * 8 + 6) w (((b % 256) >>> 6) &&& 1) height width r6 (by omega) hw
  obtain ⟨m8, e8, r8, p8⟩ :=
    set2?_spec m7 (h * 8 + 7) w (((b % 256) >>> 7) &&& 1) height width r7 (by omega) hw
  refine ⟨m8, ?_, r8, ?_⟩
  · simp only [Nat.and_one_is_mod, Nat.shiftRight_zero] at e1 e2 e3 e4 e5 e6 e7 e8
    simp [applyByte, e1, e2, e3, e4, e5, e6, e7, e8]
  · intro i' j'
    rw [p8, p7, p6, p5, p4, p3, p2, p1]
    split_ifs <;>
      first
        | rfl
        | omega
        | (simp only [bitOfByte]; congr 2 <;> omega)

end Kyria

namespace Kyria

set_option maxHeartbeats 2000000

/-- One chunk row of `Frame::new` writes the bits of `line` into rows
`h*8 .. h*8+7`, columns `w0 .. w0+line.length`. -/
lemma writeLine_spec (height width h : Nat) : ∀ (line : List Nat) (m : List (List Nat)) (w0 : Nat),
    Rect m height width → h * 8 + 7 < height → w0 + line.length ≤ width →
    ∃ m2, writeLine h m w0 line = some m2 ∧ Rect m2 height width ∧
      ∀ i' j', mget m2 i' j' =
        if h * 8 ≤ i' ∧ i' < h * 8 + 8 ∧ w0 ≤ j' ∧ j' < w0 + line.length
        then bitOfByte (line.getD (j' - w0) 0) (i' - h * 8)
        else mget m i' j' := by
  intro line
  induction line with
  | nil =>
    intro m w0 hm _ _
    refine ⟨m, rfl, hm, ?_⟩
    intro i' j'
    rw [if_neg (by simp only [List.length_nil]; omega)]
  | cons b rest ih =>
    intro m w0 hm hh hw
    obtain ⟨m1, e1, r1, p1⟩ := applyByte_spec m h w0 b height width hm hh
      (by simp only [List.length_cons] at hw; omega)
    obtain ⟨m2, e2, r2, p2⟩ := ih m1 (w0 + 1) r1 hh
      (by simp only [List.length_cons] at hw; omega)
    refine ⟨m2, ?_, r2, ?_⟩
    · simp only [writeLine, e1, Option.some_bind]
      exact e2
    · intro i' j'
      rw [p2, p1]
      by_cases hregion : h * 8 ≤ i' ∧ i' < h * 8 + 8 ∧ w0 ≤ j' ∧ j' < w0 + (b :: rest).length
      · rw [if_pos hregion]
        by_cases hcol : j' = w0
        · subst hcol
          rw [if_neg (by omega), if_pos (by omega)]
          rw [show j' - j' = 0 from by omega]
          rfl
        · rw [if_pos (by simp only [List.length_cons] at hregion; omega)]
          rw [show j' - (w0 + 1) = j' - w0 - 1 from by omega]
          have hj0 : j' - w0 = (j' - w0 - 1) + 1 := by omega
          rw [hj0, List.getD_cons_succ,
            show j' - w0 - 1 + 1 - 1 = j' - w0 - 1 from by omega]
      · rw [if_neg hregion]
        rw [if_neg (by simp only [List.length_cons] at hregion; omega)]
        rw [if_neg (by simp only [List.length_cons] at hregion; omega)]

/-- The chunk loop of `Frame::new` writes chunk `t` into rows
`(h0+t)*8 .. (h0+t)*8+7`. -/
lemma writeChunks_spec (height width : Nat) : ∀ (lines : List (List Nat)) (m : List (List Nat)) (h0 : Nat),
    Rect m height width → (∀ line ∈ lines, line.length ≤ width) →
    (h0 + lines.length) * 8 ≤ height →
    ∃ m2, writeChunks m h0 lines = some m2 ∧ Rect m2 height width ∧
      ∀ i' j', mget m2 i' j' =
        if h0 * 8 ≤ i' ∧ i' < (h0 + lines.length) * 8 ∧
            j' < (lines.getD (i' / 8 - h0) []).length
        then bitOfByte ((lines.getD (i' / 8 - h0) []).getD j' 0) (i' % 8)
        else mget m i' j' := by
  intro lines
  induction lines with
  | nil =>
    intro m h0 hm _ _
    refine ⟨m, rfl, hm, ?_⟩
    intro i' j'
    rw [if_neg (by simp only [List.length_nil, List.getD_nil]; omega)]
  | cons line rest ih =>
    intro m h0 hm hlen hh
    have hline : line.length ≤ width := hlen line (List.mem_cons_self _ _)
    obtain ⟨m1, e1, r1, p1⟩ := writeLine_spec height width h0 line m 0 hm
      (by simp only [List.length_cons] at hh; omega)
      (by omega)
    obtain ⟨m2, e2, r2, p2⟩ := ih m1 (h0 + 1) r1
      (fun l hl => hlen l (List.mem_cons_of_mem _ hl))
      (by simp only [List.length_cons] at hh ⊢; omega)
    refine ⟨m2, ?_, r2, ?_⟩
    · simp only [writeChunks, e1, Option.some_bind]
      exact e2
    · intro i' j'
      rw [p2, p1]
      by_cases hband : h0 * 8 ≤ i' ∧ i' < (h0 + 1) * 8
      · -- row i' belongs to the first chunk
        have hdiv : i' / 8 = h0 := by omega
        have hnotrest : ¬((h0 + 1) * 8 ≤ i' ∧ i' < (h0 + 1 + rest.length) * 8 ∧
            j' < (rest.getD (i' / 8 - (h0 + 1)) []).length) := by
          intro hcontra
          omega
        rw [if_neg hnotrest]
        by_cases hcol : j' < line.length
        · rw [if_pos (by omega)]
          rw [if_pos (by
            refine ⟨by omega, by simp only [List.length_cons]; omega, ?_⟩
            rw [show i' / 8 - h0 = 0 from by omega, List.getD_cons_zero]
            exact hcol)]
          rw [show i' / 8 - h0 = 0 from by omega, List.getD_cons_zero]
          rw [show j' - 0 = j' from by omega, show i' % 8 = i' - h0 * 8 from by omega]
        · rw [if_neg (by omega)]
          rw [if_neg (by
            intro hcontra
            rw [show i' / 8 - h0 = 0 from by omega, List.getD_cons_zero] at hcontra
            omega)]
      · -- row i' is beyond the first chunk (or before every chunk)
        by_cases hrest : (h0 + 1) * 8 ≤ i' ∧ i' < (h0 + 1 + rest.length) * 8 ∧
            j' < (rest.getD (i' / 8 - (h0 + 1)) []).length
        · rw [if_pos hrest]
          have hdiv : i' / 8 - h0 = (i' / 8 - (h0 + 1)) + 1 := by omega
          rw [if_pos (by
            refine ⟨by omega, by simp only [List.length_cons]; omega, ?_⟩
            rw [hdiv, List.getD_cons_succ]
            exact hrest.2.2)]
          rw [hdiv, List.getD_cons_succ]
        · rw [if_neg hrest]
          rw [if_neg (by omega)]
          rw [if_neg (by
            intro hcontra
            obtain ⟨hc1, hc2, hc3⟩ := hcontra
            simp only [List.length_cons] at hc2
            have hge : (h0 + 1) * 8 ≤ i' := by omega
            have hlt : i' < (h0 + 1 + rest.length) * 8 := by omega
            have hdiv : i' / 8 - h0 = (i' / 8 - (h0 + 1)) + 1 := by omega
            rw [hdiv, List.getD_cons_succ] at hc3
            exact hrest ⟨hge, hlt, hc3⟩)]

end Kyria

namespace Kyria

lemma chunksFuel_zero (w : Nat) (l : List Nat) : chunksFuel w 0 l = [] := by
  cases l <;> rfl

lemma chunksFuel_cons (w fuel : Nat) (a : Nat) (rest : List Nat) :
    chunksFuel w (fuel + 1) (a :: rest) =
      (a :: rest).take w :: chunksFuel w fuel ((a :: rest).drop w) := by
  rw [chunksFuel]
  simp

/-- Every chunk has length at most `w`. -/
lemma chunksFuel_mem_length (w : Nat) : ∀ (fuel : Nat) (l c : List Nat),
    c ∈ chunksFuel w fuel l → c.length ≤ w := by
  intro fuel
  induction fuel with
  | zero =>
    intro l c hc
    rw [chunksFuel_zero] at hc
    simp at hc
  | succ f ih =>
    intro l c hc
    cases l with
    | nil => simp [chunksFuel] at hc
    | cons a rest =>
      rw [chunksFuel_cons] at hc
      rcases List.mem_cons.mp hc with h | h
      · rw [h]
        simp [List.length_take]
      · exact ih _ c h

/-- `chunks` never produces more than `K` chunks when the data fits in
`K * w` bytes. -/
lemma chunksFuel_length_le (w : Nat) (hw : 0 < w) : ∀ (fuel : Nat) (l : List Nat) (K : Nat),
    l.length ≤ fuel → l.length ≤ K * w → (chunksFuel w fuel l).length ≤ K := by
  intro fuel
  induction fuel with
  | zero =>
    intro l K _ _
    rw [chunksFuel_zero]
    simp
  | succ f ih =>
    intro l K hf hK
    cases l with
    | nil => simp [chunksFuel]
    | cons a rest =>
      rw [chunksFuel_cons]
      have hKpos : 0 < K := by
        rcases Nat.eq_zero_or_pos K with h0 | h0
        · rw [h0] at hK
          simp at hK
        · exact h0
      have hrec := ih ((a :: rest).drop w) (K - 1)
        (by simp only [List.length_drop, List.length_cons] at hf ⊢; omega)
        (by
          simp only [List.length_drop, List.length_cons]
          have hKw : (K - 1) * w + w = K * w := by
            cases K with
            | zero => omega
            | succ k => simp [Nat.succ_mul]
          simp only [List.length_cons] at hK
          omega)
      simp only [List.length_cons]
      omega

/-- The chunks cover the data: `l.length ≤ (chunks w l).length * w`. -/
lemma chunksFuel_length_ge (w : Nat) (hw : 0 < w) : ∀ (fuel : Nat) (l : List Nat),
    l.length ≤ fuel → l.length ≤ (chunksFuel w fuel l).length * w := by
  intro fuel
  induction fuel with
  | zero =>
    intro l hf
    rw [List.length_eq_zero.mp (Nat.le_zero.mp hf)]
    simp
  | succ f ih =>
    intro l hf
    cases l with
    | nil => simp
    | cons a rest =>
      rw [chunksFuel_cons]
      have hrec := ih ((a :: rest).drop w)
        (by simp only [List.length_drop, List.length_cons] at hf ⊢; omega)
      simp only [List.length_drop, List.length_cons] at hrec
      simp only [List.length_cons, Nat.succ_mul]
      generalize hX : (chunksFuel w f ((a :: rest).drop w)).length * w = X at hrec ⊢
      omega

/-- Chunk `t` is the slice `l[t*w .. t*w+w)`. -/
lemma chunksFuel_getD (w : Nat) (hw : 0 < w) : ∀ (fuel : Nat) (l : List Nat) (t : Nat),
    l.length ≤ fuel → (chunksFuel w fuel l).getD t [] = (l.drop (t * w)).take w := by
  intro fuel
  induction fuel with
  | zero =>
    intro l t hf
    rw [List.length_eq_zero.mp (Nat.le_zero.mp hf)]
    rw [chunksFuel_zero]
    simp
  | succ f ih =>
    intro l t hf
    cases l with
    | nil => simp [chunksFuel]
    | cons a rest =>
      rw [chunksFuel_cons]
      cases t with
      | zero => simp
      | succ t' =>
        rw [List.getD_cons_succ]
        rw [ih ((a :: rest).drop w) t'
          (by simp only [List.length_drop, List.length_cons] at hf ⊢; omega)]
        rw [List.drop_drop]
        congr 2
        ring

end Kyria

namespace Kyria

/-- `Frame::new` succeeds and decodes each byte of `d` into its eight
bits; positions not covered by `d` read as 0 — exactly like
`d.getD _ 0`. -/
lemma new_spec (width height : Nat) (d : List Nat) (hw : 0 < width)
    (hlen : d.length ≤ (height / 8) * width) :
    ∃ M, Frame.new width height d = some M ∧ Rect M height width ∧
      ∀ i j, i < height → j < width →
        mget M i j = bitOfByte (d.getD (i / 8 * width + j) 0) (i % 8) := by
  have hKch : (chunks width d).length ≤ height / 8 :=
    chunksFuel_length_le width hw d.length d (height / 8) le_rfl hlen
  have hcover : d.length ≤ (chunks width d).length * width :=
    chunksFuel_length_ge width hw d.length d le_rfl
  have hrect0 : Rect (List.replicate height (List.replicate width 0)) height width := by
    constructor
    · simp
    · intro row hrow
      rw [List.eq_of_mem_replicate hrow]
      simp
  have hmget0 : ∀ i j, mget (List.replicate height (List.replicate width 0)) i j = 0 := by
    intro i j
    unfold mget
    rw [List.getD_eq_getElem?_getD (List.replicate height (List.replicate width 0)) i [],
      List.getElem?_replicate]
    split
    · rw [Option.getD_some, List.getD_eq_getElem?_getD, List.getElem?_replicate]
      split
      · rfl
      · rfl
    · rfl
  obtain ⟨M, e, r, p⟩ := writeChunks_spec height width (chunks width d)
    (List.replicate height (List.replicate width 0)) 0 hrect0
    (fun line hl => chunksFuel_mem_length width d.length d line hl)
    (by
      simp only [Nat.zero_add]
      have h1 : (chunks width d).length * 8 ≤ (height / 8) * 8 :=
        Nat.mul_le_mul_right 8 hKch
      have h2 : (height / 8) * 8 ≤ height := Nat.div_mul_le_self height 8
      omega)
  refine ⟨M, ?_, r, ?_⟩
  · unfold Frame.new
    rw [if_neg (by omega)]
    exact e
  · intro i j hi hj
    rw [p i j, hmget0 i j]
    have hgetD : (chunks width d).getD (i / 8 - 0) [] = (d.drop (i / 8 * width)).take width := by
      rw [show i / 8 - 0 = i / 8 from by omega]
      exact chunksFuel_getD width hw d.length d (i / 8) le_rfl
    by_cases hin : 0 * 8 ≤ i ∧ i < (0 + (chunks width d).length) * 8 ∧
        j < ((chunks width d).getD (i / 8 - 0) []).length
    · rw [if_pos hin]
      obtain ⟨-, hband, hcol⟩ := hin
      rw [hgetD] at hcol ⊢
      congr 1
      rw [List.getD_eq_getElem?_getD, List.getD_eq_getElem?_getD]
      rw [List.getElem?_take_of_lt hj, List.getElem?_drop]
    · rw [if_neg hin]
      have hd : d.length ≤ i / 8 * width + j := by
        rcases Nat.lt_or_ge i ((chunks width d).length * 8) with hband | hband
        · have hcol : ¬ j < ((chunks width d).getD (i / 8 - 0) []).length := by
            intro hc
            exact hin ⟨by omega, by omega, hc⟩
          rw [hgetD] at hcol
          simp only [List.length_take, List.length_drop] at hcol
          generalize hB : i / 8 * width = B at hcol ⊢
          omega
        · have hdiv : (chunks width d).length ≤ i / 8 := by
            generalize hA : (chunks width d).length = A at hband ⊢
            omega
          have hmul : (chunks width d).length * width ≤ i / 8 * width :=
            Nat.mul_le_mul_right width hdiv
          generalize hA : (chunks width d).length * width = A at hcover hmul
          generalize hB : i / 8 * width = B at hmul ⊢
          omega
      rw [List.getD_eq_getElem?_getD, List.getElem?_eq_none (by simpa using hd)]
      simp

end Kyria

namespace Kyria

lemma get2?_spec (m : List (List Nat)) (height width : Nat) (hm : Rect m height width)
    (i j : Nat) (hi : i < height) (hj : j < width) :
    get2? m i j = some (mget m i j) := by
  have him : i < m.length := by rw [hm.1]; exact hi
  have hrow : (m.get ⟨i, him⟩).length = width := hm.2 _ (List.get_mem _ _ _)
  have hjrow : j < (m.get ⟨i, him⟩).length := by rw [hrow]; exact hj
  unfold get2?
  simp only [Option.bind_eq_bind]
  rw [List.get?_eq_getElem?, List.getElem?_eq_getElem him, Option.some_bind]
  rw [List.get?_eq_getElem?]
  rw [List.getElem?_eq_getElem (show j < m[i].length from hjrow)]
  rw [mget_eq_get m i j him hjrow]
  rfl

lemma byteAt_spec (m : List (List Nat)) (height width : Nat) (hm : Rect m height width)
    (h w : Nat) (hh : h + 7 < height) (hw : w < width) :
    byteAt m h w = some (encByte (mget m h w) (mget m (h + 1) w) (mget m (h + 2) w)
      (mget m (h + 3) w) (mget m (h + 4) w) (mget m (h + 5) w)
      (mget m (h + 6) w) (mget m (h + 7) w)) := by
  unfold byteAt
  simp only [Option.bind_eq_bind]
  rw [get2?_spec m height width hm h w (by omega) hw, Option.some_bind]
  rw [get2?_spec m height width hm (h + 1) w (by omega) hw, Option.some_bind]
  rw [get2?_spec m height width hm (h + 2) w (by omega) hw, Option.some_bind]
  rw [get2?_spec m height width hm (h + 3) w (by omega) hw, Option.some_bind]
  rw [get2?_spec m height width hm (h + 4) w (by omega) hw, Option.some_bind]
  rw [get2?_spec m height width hm (h + 5) w (by omega) hw, Option.some_bind]
  rw [get2?_spec m height width hm (h + 6) w (by omega) hw, Option.some_bind]
  rw [get2?_spec m height width hm (h + 7) w (by omega) hw, Option.some_bind]
  rfl

lemma mapM_some {α β : Type} (g : α → Option β) (v : α → β) :
    ∀ (l : List α), (∀ x ∈ l, g x = some (v x)) → l.mapM g = some (l.map v) := by
  intro l
  induction l with
  | nil => intro _; rfl
  | cons x xs ih =>
    intro hin
    rw [List.mapM_cons, hin x (List.mem_cons_self _ _),
      ih (fun y hy => hin y (List.mem_cons_of_mem _ hy))]
    rfl

lemma getD_map_range (n : Nat) (f : Nat → Nat) (i : Nat) (hi : i < n) :
    ((List.range n).map f).getD i 0 = f i := by
  rw [List.getD_eq_getElem?_getD, List.getElem?_map, List.getElem?_range hi]
  rfl

lemma flatten_grid_length (width : Nat) (F : Nat → Nat → Nat) : ∀ (K : Nat),
    (((List.range K).map (fun t => (List.range width).map (fun w => F t w))).flatten).length
      = K * width := by
  intro K
  induction K with
  | zero => simp
  | succ K ih =>
    rw [List.range_succ, List.map_append, List.flatten_append]
    simp only [List.length_append, ih]
    simp [Nat.succ_mul]

lemma flatten_grid_getD (width : Nat) (F : Nat → Nat → Nat) : ∀ (K t w2 : Nat),
    t < K → w2 < width →
    (((List.range K).map (fun t => (List.range width).map (fun w => F t w))).flatten).getD
      (t * width + w2) 0 = F t w2 := by
  intro K
  induction K with
  | zero => intro t w2 ht _; omega
  | succ K ih =>
    intro t w2 ht hw2
    rw [List.range_succ, List.map_append, List.flatten_append]
    rcases Nat.lt_or_ge t K with h | h
    · have hidx : t * width + w2 <
          (((List.range K).map (fun t => (List.range width).map (fun w => F t w))).flatten).length := by
        rw [flatten_grid_length]
        have h1 : t * width + width ≤ K * width := by
          have := Nat.mul_le_mul_right width (by omega : t + 1 ≤ K)
          simpa [Nat.add_mul] using this
        omega
      rw [List.getD_eq_getElem?_getD, List.getElem?_append_left hidx]
      rw [← List.getD_eq_getElem?_getD]
      exact ih t w2 h hw2
    · have heq : t = K := by omega
      subst heq
      have hpre :
          (((List.range t).map (fun t => (List.range width).map (fun w => F t w))).flatten).length
            = t * width := flatten_grid_length width F t
      rw [List.getD_eq_getElem?_getD, List.getElem?_append_right (by omega : 
        (((List.range t).map (fun t => (List.range width).map (fun w => F t w))).flatten).length
          ≤ t * width + w2)]
      rw [hpre]
      simp only [List.map_cons, List.map_nil, List.flatten_cons, List.flatten_nil,
        List.append_nil]
      rw [show t * width + w2 - t * width = w2 from by omega]
      rw [List.getElem?_map, List.getElem?_range hw2]
      rfl

end Kyria

namespace Kyria

set_option maxHeartbeats 2000000

/-- `Frame::output` on a rectangular matrix with positive height divisible
by 8: it packs each band/column into `encByte` and strips trailing
zeros. -/
lemma output_spec (m : List (List Nat)) (height width : Nat)
    (hm : Rect m height width) (hhpos : 0 < height) (h8 : height % 8 = 0) :
    Frame.output m = some (truncTrailingZeros
      (((List.range (height / 8)).map (fun t => (List.range width).map (fun w =>
        encByte (mget m (8 * t) w) (mget m (8 * t + 1) w) (mget m (8 * t + 2) w)
          (mget m (8 * t + 3) w) (mget m (8 * t + 4) w) (mget m (8 * t + 5) w)
          (mget m (8 * t + 6) w) (mget m (8 * t + 7) w)))).flatten)) := by
  have hlen0 : 0 < m.length := by rw [hm.1]; exact hhpos
  have h0 : m.get? 0 = some (m.get ⟨0, hlen0⟩) := by
    rw [List.get?_eq_getElem?, List.getElem?_eq_getElem hlen0]
    rfl
  have hr0 : (m.get ⟨0, hlen0⟩).length = width := hm.2 _ (List.get_mem _ _ _)
  have hK : (m.length + 7) / 8 = height / 8 := by rw [hm.1]; omega
  have hinner : ∀ h2 ∈ (List.range (height / 8)).map (fun b => 8 * b),
      (List.range width).mapM (fun w => byteAt m h2 w) =
        some ((List.range width).map (fun w =>
          encByte (mget m h2 w) (mget m (h2 + 1) w) (mget m (h2 + 2) w)
            (mget m (h2 + 3) w) (mget m (h2 + 4) w) (mget m (h2 + 5) w)
            (mget m (h2 + 6) w) (mget m (h2 + 7) w))) := by
    intro h2 hmem
    obtain ⟨t, htK, hteq⟩ := List.mem_map.mp hmem
    have htlt : t < height / 8 := List.mem_range.mp htK
    apply mapM_some
    intro w hwmem
    have hwlt : w < width := List.mem_range.mp hwmem
    exact byteAt_spec m height width hm h2 w (by omega) hwlt
  unfold Frame.output
  simp only [Option.bind_eq_bind]
  rw [h0, Option.some_bind, hr0, hK]
  rw [mapM_some (fun h2 => (List.range width).mapM (fun w => byteAt m h2 w))
    (fun h2 => (List.range width).map (fun w =>
      encByte (mget m h2 w) (mget m (h2 + 1) w) (mget m (h2 + 2) w)
        (mget m (h2 + 3) w) (mget m (h2 + 4) w) (mget m (h2 + 5) w)
        (mget m (h2 + 6) w) (mget m (h2 + 7) w)))
    ((List.range (height / 8)).map (fun b => 8 * b)) hinner]
  rw [Option.some_bind, List.map_map]
  rfl

lemma getD_append_replicate_zero (d : List Nat) (z idx : Nat) :
    (d ++ List.replicate z 0).getD idx 0 = d.getD idx 0 := by
  rcases Nat.lt_or_ge idx d.length with h | h
  · rw [List.getD_eq_getElem?_getD (d ++ List.replicate z 0) _ _,
      List.getElem?_append_left h, ← List.getD_eq_getElem?_getD]
  · rw [List.getD_eq_getElem?_getD (d ++ List.replicate z 0) _ _,
      List.getElem?_append_right h, List.getElem?_replicate]
    rw [List.getD_eq_getElem?_getD, List.getElem?_eq_none (by simpa using h)]
    split <;> rfl

end Kyria

namespace Kyria

set_option maxHeartbeats 2000000

/-- C2 (amended): for every rectangular pixel matrix with binary entries,
positive width, and positive height divisible by 8, packing with
`Frame::output` and unpacking the packed bytes with the original width and
height through `Frame::new` reproduces the matrix exactly, truncated
trailing zero bytes included. -/
theorem frame_pack_unpack (m : List (List Nat)) (width height : Nat)
    (hh : m.length = height) (hw : ∀ row ∈ m, row.length = width)
    (hbin : ∀ row ∈ m, ∀ x ∈ row, x < 2)
    (h8 : height % 8 = 0) (hhpos : 0 < height) (hwpos : 0 < width) :
    ∃ bytes, Frame.output m = some bytes ∧ Frame.new width height bytes = some m := by
  have hm : Rect m height width := ⟨hh, hw⟩
  have hbinm : ∀ a b, a < height → b < width → mget m a b < 2 := by
    intro a b ha hb
    have him : a < m.length := by rw [hh]; exact ha
    have hrow : (m.get ⟨a, him⟩).length = width := hw _ (List.get_mem _ _ _)
    rw [mget_eq_get m a b him (by rw [hrow]; exact hb)]
    exact hbin _ (List.get_mem _ _ _) _ (List.get_mem _ _ _)
  have hout := output_spec m height width hm hhpos h8
  set B := ((List.range (height / 8)).map (fun t => (List.range width).map (fun w =>
      encByte (mget m (8 * t) w) (mget m (8 * t + 1) w) (mget m (8 * t + 2) w)
        (mget m (8 * t + 3) w) (mget m (8 * t + 4) w) (mget m (8 * t + 5) w)
        (mget m (8 * t + 6) w) (mget m (8 * t + 7) w)))).flatten with hBdef
  obtain ⟨z, hsplit⟩ := truncTrailingZeros_split B
  have hBlen : B.length = (height / 8) * width := by
    rw [hBdef]
    exact flatten_grid_length width _ (height / 8)
  have htlen : (truncTrailingZeros B).length ≤ (height / 8) * width := by
    have hz : (truncTrailingZeros B).length + z = B.length := by
      conv_rhs => rw [hsplit]
      simp
    omega
  obtain ⟨M, hnew, hrectM, hMget⟩ := new_spec width height (truncTrailingZeros B) hwpos htlen
  refine ⟨truncTrailingZeros B, hout, ?_⟩
  rw [hnew]
  have hMm : M = m := by
    apply rect_ext M m height width hrectM hm
    intro i j hi hj
    rw [hMget i j hi hj]
    have hgetB : (truncTrailingZeros B).getD (i / 8 * width + j) 0
        = B.getD (i / 8 * width + j) 0 := by
      conv_rhs => rw [hsplit]
      rw [getD_append_replicate_zero]
    rw [hgetB]
    have htK : i / 8 < height / 8 := by omega
    have hBval : B.getD (i / 8 * width + j) 0 =
        encByte (mget m (8 * (i / 8)) j) (mget m (8 * (i / 8) + 1) j)
          (mget m (8 * (i / 8) + 2) j) (mget m (8 * (i / 8) + 3) j)
          (mget m (8 * (i / 8) + 4) j) (mget m (8 * (i / 8) + 5) j)
          (mget m (8 * (i / 8) + 6) j) (mget m (8 * (i / 8) + 7) j) := by
      rw [hBdef]
      exact flatten_grid_getD width _ (height / 8) (i / 8) j htK hj
    rw [hBval]
    obtain ⟨q0, q1, q2, q3, q4, q5, q6, q7⟩ := encByte_bits
      (mget m (8 * (i / 8)) j) (mget m (8 * (i / 8) + 1) j)
      (mget m (8 * (i / 8) + 2) j) (mget m (8 * (i / 8) + 3) j)
      (mget m (8 * (i / 8) + 4) j) (mget m (8 * (i / 8) + 5) j)
      (mget m (8 * (i / 8) + 6) j) (mget m (8 * (i / 8) + 7) j)
      (hbinm _ j (by omega) hj) (hbinm _ j (by omega) hj) (hbinm _ j (by omega) hj)
      (hbinm _ j (by omega) hj) (hbinm _ j (by omega) hj) (hbinm _ j (by omega) hj)
      (hbinm _ j (by omega) hj) (hbinm _ j (by omega) hj)
    have hr8 : i % 8 = 0 ∨ i % 8 = 1 ∨ i % 8 = 2 ∨ i % 8 = 3 ∨ i % 8 = 4 ∨ i % 8 = 5 ∨
        i % 8 = 6 ∨ i % 8 = 7 := by omega
    rcases hr8 with hr | hr | hr | hr | hr | hr | hr | hr
    · rw [hr, q0, show 8 * (i / 8) = i from by omega]
    · rw [hr, q1, show 8 * (i / 8) + 1 = i from by omega]
    · rw [hr, q2, show 8 * (i / 8) + 2 = i from by omega]
    · rw [hr, q3, show 8 * (i / 8) + 3 = i from by omega]
    · rw [hr, q4, show 8 * (i / 8) + 4 = i from by omega]
    · rw [hr, q5, show 8 * (i / 8) + 5 = i from by omega]
    · rw [hr, q6, show 8 * (i / 8) + 6 = i from by omega]
    · rw [hr, q7, show 8 * (i / 8) + 7 = i from by omega]
  rw [hMm]

/-- Witness for `frame_pack_unpack` on a concrete 8×2 matrix. -/
theorem frame_pack_unpack_witness :
    ∃ bytes,
      Frame.output [[1, 0], [0, 1], [0, 0], [0, 0], [0, 0], [0, 0], [0, 0], [0, 0]]
        = some bytes ∧
      Frame.new 2 8 bytes
        = some [[1, 0], [0, 1], [0, 0], [0, 0], [0, 0], [0, 0], [0, 0], [0, 0]] :=
  frame_pack_unpack [[1, 0], [0, 1], [0, 0], [0, 0], [0, 0], [0, 0], [0, 0], [0, 0]] 2 8
    (by decide) (by decide) (by decide) (by decide) (by decide) (by decide)

/-- C2 (counterexample): the claim as stated quantifies over *every*
matrix with consistent row widths, but on `[[1]]` — a 1×1 binary matrix —
`Frame::output` panics (it reads `self.frame[1][0]` through
`self.frame[7][0]`, rows that do not exist, because the height is not a
multiple of 8), so packing then unpacking cannot reproduce the matrix. -/
theorem frame_pack_unpack_height_one_fails :
    (Frame.output [[1]]).bind (Frame.new 1 1) ≠ some [[1]] := by
  decide

end Kyria
